import Mathlib

/-!
Shallow embedding of the expense-splitting application (split strategies,
ledger balance recomputation and greedy debt settlement).

Monetary values are modelled as exact rationals (ℚ); the source's
`round(x, 2)` becomes `round2` below (round-half-up to two decimal places;
no statement proved here depends on the tie-breaking direction of `round`).
Python dicts are modelled as insertion-ordered association lists
(`List (String × ℚ)`) with overwrite-in-place update, matching CPython
semantics.  Exceptions become `Except Err`, with one structured error
constructor per distinct `raise` site (message formatting is not modelled).
Python's `TypeError` checks for non-numeric values cannot fire in the ℚ
embedding and are omitted.
-/

namespace ExpenseApp

/-- View of `Except` as a sum, used only to derive decidable equality. -/
def exceptView {ε α : Type} : Except ε α → ε ⊕ α
  | .error e => .inl e
  | .ok a => .inr a

instance {ε α : Type} [DecidableEq ε] [DecidableEq α] :
    DecidableEq (Except ε α) := fun x y =>
  decidable_of_iff (exceptView x = exceptView y)
    (by cases x <;> cases y <;> simp [exceptView])

/-! ## Constants (src/constants.py) -/

def MAX_NAME_LENGTH : ℕ := 50

def MAX_AMOUNT : ℚ := 999999.99

def MAX_PARTICIPANTS : ℕ := 100

def MAX_PEOPLE : ℕ := 1000

def MIN_PERCENTAGE : ℚ := 0.01

def MAX_PERCENTAGE : ℚ := 100.0

def PERCENTAGE_TOLERANCE : ℚ := 0.01

def SETTLEMENT_TOLERANCE : ℚ := 0.01

/-- Python `round(x, 2)` (ROUNDING_PRECISION = 2): round to an integer number
of hundredths.  Mathlib's `round` is round-half-up; CPython rounds the
underlying binary float.  The two agree except at exact half-cent ties, and no
theorem below depends on tie direction. -/
def round2 (x : ℚ) : ℚ := (round (100 * x) : ℤ) / 100

/-- ASCII lower-casing of one character (`str.lower` on the ASCII names this
program handles). -/
def lowerChar (c : Char) : Char :=
  if 'A' ≤ c ∧ c ≤ 'Z' then Char.ofNat (c.toNat + 32) else c

/-- Python `s.lower()`.  Implemented on the character list (rather than via
`String.toLower`) so that it is kernel-executable. -/
def strLower (s : String) : String := ⟨s.data.map lowerChar⟩

/-- Python `s.strip()`: drop leading and trailing whitespace.  Implemented on
the character list so that it is kernel-executable. -/
def strTrim (s : String) : String :=
  ⟨((s.data.dropWhile Char.isWhitespace).reverse.dropWhile
      Char.isWhitespace).reverse⟩

/-- Python `s.strip().lower()`, the name normalization used throughout. -/
def cleanName (s : String) : String := strLower (strTrim s)

/-- One character of `NAME_PATTERN = r"^[a-zA-Z0-9\s\-_\.]+$"`. -/
def validNameChar (c : Char) : Bool :=
  c.isAlpha || c.isDigit || c.isWhitespace || c == '-' || c == '_' || c == '.'

/-- Python `re.match(NAME_PATTERN, s)`: the whole string is nonempty and made
of allowed characters. -/
def matchesNamePattern (s : String) : Bool :=
  !(s == "") && s.data.all validNameChar

/-- Monetary validity (src/models_new.py `is_valid_money`, the only definition
of this function in the repository): an amount with at most two decimal
places, i.e. `100 * q` is an integer. -/
def is_valid_money (q : ℚ) : Bool := (100 * q).den == 1

/-! ## Python dicts as insertion-ordered association lists -/

def dictMem (d : List (String × ℚ)) (k : String) : Bool :=
  d.any (fun kv => kv.1 == k)

/-- Python `d[k] = v`: overwrite in place if the key exists, else append. -/
def dictInsert (d : List (String × ℚ)) (k : String) (v : ℚ) : List (String × ℚ) :=
  if dictMem d k then d.map (fun kv => if kv.1 == k then (k, v) else kv)
  else d ++ [(k, v)]

/-- Python `d[k]`, defaulting to 0 where the source guarantees presence. -/
def dictGet (d : List (String × ℚ)) (k : String) : ℚ :=
  ((d.find? (fun kv => kv.1 == k)).map Prod.snd).getD 0

/-- Python `{k.strip().lower(): d[k] for k in d.keys()}`. -/
def cleanDict (d : List (String × ℚ)) : List (String × ℚ) :=
  d.foldl (fun acc kv => dictInsert acc (cleanName kv.1) kv.2) []

/-- Python `set(d.keys()) == set(ps)`. -/
def sameKeySet (d : List (String × ℚ)) (ps : List String) : Bool :=
  ps.all (fun p => dictMem d p) && d.all (fun kv => ps.contains kv.1)

/-- Python `{p: f p for p in ps}`. -/
def sharesOf (ps : List String) (f : String → ℚ) : List (String × ℚ) :=
  ps.foldl (fun acc p => dictInsert acc p (f p)) []

/-- Sum of a dict's values. -/
def valuesSum (d : List (String × ℚ)) : ℚ := (d.map Prod.snd).sum

/-- Python `sum(d[p] for p in ps)`. -/
def sumOverKeys (d : List (String × ℚ)) (ps : List String) : ℚ :=
  (ps.map (dictGet d)).sum

/-! ## Errors: one constructor per distinct raise site that the embedding can
reach. -/

inductive Err where
  | zeroDivision
  | weightsEmpty
  | weightNegative (name : String)
  | weightsMismatch
  | totalWeightZero
  | percentagesEmpty
  | percentTooSmall (name : String)
  | percentTooLarge (name : String)
  | percentMismatch
  | percentSumOff
  | exactMismatch
  | exactSumOff
  | missingName
  | nameTooLong
  | nameBadChars
  | ledgerFull
  | badMoney
  | missingPayer
  | badAmountPositive
  | badAmountMax
  | missingParticipants
  | tooManyParticipants
  | emptyParticipantName
  | participantNameTooLong
  | participantBadChars
  | duplicateParticipants
  | badSplitKind
  | emptyPayerName
  | emptyParticipantsList
  | noValidParticipants
  | personNotFound (name : String)
  | keyError (name : String)
  deriving Repr, DecidableEq

/-! ## Split strategies, first implementation (src/split_strategies.py) -/

namespace SplitsOld

/-- src/split_strategies.py lines 33-40, `EqualSplit.compute_shares`:
`{participant: amount / len(participants) for participant in participants}`.
Python raises `ZeroDivisionError` on an empty participant list. -/
def equalShares (amount : ℚ) (participants : List String) :
    Except Err (List (String × ℚ)) :=
  if participants.length == 0 then .error .zeroDivision
  else .ok (sharesOf participants (fun _ => amount / participants.length))

/-- src/split_strategies.py lines 57-101, `WeightsSplit.compute_shares`. -/
def weightsShares (amount : ℚ) (participants : List String)
    (weights : List (String × ℚ)) : Except Err (List (String × ℚ)) :=
  if weights.isEmpty then .error .weightsEmpty
  else
    let wc := cleanDict weights
    match wc.find? (fun kv => decide (kv.2 < 0)) with
    | some kv => .error (.weightNegative kv.1)
    | none =>
      if sameKeySet wc participants then
        let total := sumOverKeys wc participants
        if total == 0 then .error .totalWeightZero
        else .ok (sharesOf participants (fun p => amount * dictGet wc p / total))
      else .error .weightsMismatch

/-- src/split_strategies.py lines 118-153, `PercentSplit.compute_shares`.
Each cleaned value is range-checked (`< MIN_PERCENTAGE` first, then
`> MAX_PERCENTAGE`) before the key-set and sum checks. -/
def percentShares (amount : ℚ) (participants : List String)
    (percentages : List (String × ℚ)) : Except Err (List (String × ℚ)) :=
  if percentages.isEmpty then .error .percentagesEmpty
  else
    let pc := cleanDict percentages
    match pc.find? (fun kv =>
        decide (kv.2 < MIN_PERCENTAGE) || decide (MAX_PERCENTAGE < kv.2)) with
    | some kv =>
      if kv.2 < MIN_PERCENTAGE then .error (.percentTooSmall kv.1)
      else .error (.percentTooLarge kv.1)
    | none =>
      if sameKeySet pc participants then
        let total := sumOverKeys pc participants
        if PERCENTAGE_TOLERANCE < |total - 100| then .error .percentSumOff
        else .ok (sharesOf participants (fun p => amount * dictGet pc p / 100))
      else .error .percentMismatch

/-- src/split_strategies.py lines 170-193, `ExactSplit.compute_shares`:
the emptiness test is performed on the cleaned dict, fused with the key-set
test (`if not exact_amounts_clean or set(...) != set(participants)`). -/
def exactShares (amount : ℚ) (participants : List String)
    (exact_amounts : List (String × ℚ)) : Except Err (List (String × ℚ)) :=
  let ec := cleanDict exact_amounts
  if ec.isEmpty || !sameKeySet ec participants then .error .exactMismatch
  else
    let total := sumOverKeys ec participants
    if round2 total ≠ round2 amount then .error .exactSumOff
    else .ok (sharesOf participants (fun p => dictGet ec p))

end SplitsOld

/-! ## Split strategies, second implementation (src/split_strategies_new.py) -/

namespace SplitsNew

/-- src/split_strategies_new.py lines 51-63, `EqualSplit.compute_shares`:
`share_per_person = amount / len(participants)` then one dict comprehension.
Python raises `ZeroDivisionError` on an empty participant list. -/
def equalShares (amount : ℚ) (participants : List String) :
    Except Err (List (String × ℚ)) :=
  if participants.length == 0 then .error .zeroDivision
  else
    let share_per_person := amount / participants.length
    .ok (sharesOf participants (fun _ => share_per_person))

/-- src/split_strategies_new.py lines 85-140, `WeightsSplit.compute_shares`. -/
def weightsShares (amount : ℚ) (participants : List String)
    (weights : List (String × ℚ)) : Except Err (List (String × ℚ)) :=
  if weights.isEmpty then .error .weightsEmpty
  else
    let wc := cleanDict weights
    match wc.find? (fun kv => decide (kv.2 < 0)) with
    | some kv => .error (.weightNegative kv.1)
    | none =>
      if sameKeySet wc participants then
        let total := sumOverKeys wc participants
        if total == 0 then .error .totalWeightZero
        else .ok (sharesOf participants (fun p => amount * dictGet wc p / total))
      else .error .weightsMismatch

/-- src/split_strategies_new.py lines 163-219, `PercentSplit.compute_shares`. -/
def percentShares (amount : ℚ) (participants : List String)
    (percentages : List (String × ℚ)) : Except Err (List (String × ℚ)) :=
  if percentages.isEmpty then .error .percentagesEmpty
  else
    let pc := cleanDict percentages
    match pc.find? (fun kv =>
        decide (kv.2 < MIN_PERCENTAGE) || decide (MAX_PERCENTAGE < kv.2)) with
    | some kv =>
      if kv.2 < MIN_PERCENTAGE then .error (.percentTooSmall kv.1)
      else .error (.percentTooLarge kv.1)
    | none =>
      if sameKeySet pc participants then
        let total := sumOverKeys pc participants
        if PERCENTAGE_TOLERANCE < |total - 100| then .error .percentSumOff
        else .ok (sharesOf participants (fun p => amount * dictGet pc p / 100))
      else .error .percentMismatch

/-- src/split_strategies_new.py lines 242-283, `ExactSplit.compute_shares`:
unlike the first implementation, the emptiness test is on the raw dict and
precedes cleaning; the error raised is the same. -/
def exactShares (amount : ℚ) (participants : List String)
    (exact_amounts : List (String × ℚ)) : Except Err (List (String × ℚ)) :=
  if exact_amounts.isEmpty then .error .exactMismatch
  else
    let ec := cleanDict exact_amounts
    if !sameKeySet ec participants then .error .exactMismatch
    else
      let total := sumOverKeys ec participants
      if round2 total ≠ round2 amount then .error .exactSumOff
      else .ok (sharesOf participants (fun p => dictGet ec p))

end SplitsNew

/-! ## Data model (src/models.py; the Person/Expense used by both ledgers).
`ledger.py` and `ledger_new.py` both do `from models import Person, Expense`,
and `models.py` does `from split_strategies import ...`, so the runtime
strategy code is the first implementation (`SplitsOld`). -/

/-- The polymorphic strategy value held by an `Expense` (the class hierarchy
`EqualSplit | WeightsSplit | PercentSplit | ExactSplit`, each storing its
parameter dict verbatim at construction). -/
inductive SplitStrategy where
  | equal
  | weights (w : List (String × ℚ))
  | percent (pc : List (String × ℚ))
  | exact (ex : List (String × ℚ))
  deriving Repr, DecidableEq

/-- The `**kwargs` of `add_expense` / `Expense.__init__`. -/
structure SplitKwargs where
  weights : Option (List (String × ℚ)) := none
  percentages : Option (List (String × ℚ)) := none
  exact_amounts : Option (List (String × ℚ)) := none
  deriving Repr, DecidableEq

structure Expense where
  payer : String
  amount : ℚ
  participants : List String
  split : SplitStrategy
  deriving Repr, DecidableEq

/-- `expense.split.compute_shares(expense.amount, expense.participants)`,
dispatching on the stored strategy (src/split_strategies.py, the
implementation imported by models.py). -/
def Expense.computeShares (e : Expense) : Except Err (List (String × ℚ)) :=
  match e.split with
  | .equal => SplitsOld.equalShares e.amount e.participants
  | .weights w => SplitsOld.weightsShares e.amount e.participants w
  | .percent pc => SplitsOld.percentShares e.amount e.participants pc
  | .exact ex => SplitsOld.exactShares e.amount e.participants ex

/-- The participants-setter loop of `Expense` (src/models.py lines 140-154):
clean each name and validate it, keeping the cleaned list. -/
def cleanParticipantsLoop : List String → Except Err (List String)
  | [] => .ok []
  | p :: rest =>
    let cn := cleanName p
    if cn == "" then .error .emptyParticipantName
    else if MAX_NAME_LENGTH < cn.length then .error .participantNameTooLong
    else if !matchesNamePattern cn then .error .participantBadChars
    else (cleanParticipantsLoop rest).map (fun cs => cn :: cs)

/-- `Expense.__init__` (src/models.py lines 75-98) with its property-setter
validations, in source order: payer, amount, participants, then the split
dispatch.  The stored amount is `round(amount, 2)`; strategy parameter dicts
are stored verbatim (`kwargs.get(...) or {}`) with no validation here. -/
def Expense.make (payer : String) (amount : ℚ) (participants : List String)
    (split : String) (kwargs : SplitKwargs) : Except Err Expense :=
  if payer == "" then .error .missingPayer
  else if !is_valid_money amount then .error .badMoney
  else if amount ≤ 0 then .error .badAmountPositive
  else if MAX_AMOUNT < amount then .error .badAmountMax
  else if participants.isEmpty then .error .missingParticipants
  else if MAX_PARTICIPANTS < participants.length then .error .tooManyParticipants
  else
    match cleanParticipantsLoop participants with
    | .error e => .error e
    | .ok clean =>
      if clean.Nodup then
        match split with
        | "equal" => .ok ⟨payer, round2 amount, clean, .equal⟩
        | "weights" => .ok ⟨payer, round2 amount, clean, .weights (kwargs.weights.getD [])⟩
        | "percent" => .ok ⟨payer, round2 amount, clean, .percent (kwargs.percentages.getD [])⟩
        | "exact" => .ok ⟨payer, round2 amount, clean, .exact (kwargs.exact_amounts.getD [])⟩
        | _ => .error .badSplitKind
      else .error .duplicateParticipants

structure Person where
  name : String
  balance : ℚ
  paid : ℚ
  owe : ℚ
  deriving Repr, DecidableEq

/-! ## Ledger (src/ledger_new.py; src/ledger.py implements the same
balance/settlement algorithms with fewer validations in `add_person` /
`add_expense`). -/

structure Ledger where
  people : List Person
  expenses : List Expense
  deriving Repr, DecidableEq

def Ledger.hasPerson (L : Ledger) (n : String) : Bool :=
  L.people.any (fun p => p.name == n)

/-- src/ledger_new.py lines 43-79, `Ledger.add_person`.  The trailing
`Person(...)` construction re-validates the already-clean name (a no-op,
since cleaning is idempotent) and validates the balance via
`is_valid_money`; both are folded in here. -/
def Ledger.add_person (L : Ledger) (name : String) (balance paid owe : ℚ) :
    Except Err Ledger :=
  let nc := cleanName name
  if nc == "" then .error .missingName
  else if MAX_NAME_LENGTH < nc.length then .error .nameTooLong
  else if !matchesNamePattern nc then .error .nameBadChars
  else if MAX_PEOPLE ≤ L.people.length then .error .ledgerFull
  else if L.hasPerson nc then .ok L
  else if !is_valid_money balance then .error .badMoney
  else .ok { L with people := L.people ++ [⟨nc, balance, paid, owe⟩] }

/-- The interactive "Person X does not exist. Create? (y/n)" block of
`add_expense` (src/ledger_new.py lines 124-147).  The user's answer is the
boundary-layer policy; it enters the embedding as the `autoCreate` flag:
`y` calls `add_person` on the raw name with default fields, `n` raises. -/
def Ledger.ensurePerson (autoCreate : Bool) (L : Ledger) (raw : String) :
    Except Err Ledger :=
  if L.hasPerson (cleanName raw) then .ok L
  else if autoCreate then L.add_person raw 0 0 0
  else .error (.personNotFound (cleanName raw))

/-- src/ledger_new.py lines 81-152, `Ledger.add_expense`: value validations in
source order, name cleaning, payer/participant existence (with the
auto-create policy), `Expense` construction, append, and
`self.people[expense.payer].paid += expense.amount` (a strict dict access:
`keyError` if the payer were absent). -/
def Ledger.add_expense (autoCreate : Bool) (L : Ledger) (payer : String)
    (amount : ℚ) (participants : List String) (split : String)
    (kwargs : SplitKwargs) : Except Err Ledger :=
  if strTrim payer == "" then .error .emptyPayerName
  else if participants.isEmpty then .error .emptyParticipantsList
  else if amount ≤ 0 then .error .badAmountPositive
  else if MAX_AMOUNT < amount then .error .badAmountMax
  else
    let payer_clean := cleanName payer
    let participants_clean :=
      (participants.filter (fun p => !(strTrim p == ""))).map cleanName
    if participants_clean.isEmpty then .error .noValidParticipants
    else
      match L.ensurePerson autoCreate payer with
      | .error e => .error e
      | .ok L1 =>
        match participants_clean.foldlM (Ledger.ensurePerson autoCreate) L1 with
        | .error e => .error e
        | .ok L2 =>
          match Expense.make payer_clean amount participants_clean split kwargs with
          | .error e => .error e
          | .ok e =>
            let L3 : Ledger := { L2 with expenses := L2.expenses ++ [e] }
            if L3.hasPerson e.payer then
              .ok { L3 with people := L3.people.map (fun p =>
                if p.name == e.payer then { p with paid := p.paid + e.amount } else p) }
            else .error (.keyError e.payer)

/-! ## Balance recomputation (src/ledger_new.py lines 154-173,
`Ledger.balances`; identical in src/ledger.py lines 93-105). -/

/-- `for person in self.people.values(): person.owe = 0`. -/
def resetOwes (people : List Person) : List Person :=
  people.map (fun p => { p with owe := 0 })

/-- `self.people[participant].owe += share` — a strict dict access. -/
def addShare (people : List Person) (n : String) (share : ℚ) :
    Except Err (List Person) :=
  if people.any (fun p => p.name == n) then
    .ok (people.map (fun p =>
      if p.name == n then { p with owe := p.owe + share } else p))
  else .error (.keyError n)

def addShares (people : List Person) (shares : List (String × ℚ)) :
    Except Err (List Person) :=
  shares.foldlM (fun ppl kv => addShare ppl kv.1 kv.2) people

/-- One iteration of the expense loop in `balances`. -/
def applyExpense (people : List Person) (e : Expense) :
    Except Err (List Person) :=
  match e.computeShares with
  | .error err => .error err
  | .ok sh => addShares people sh

/-- `Ledger.balances` (the spec's `recompute_balances()`): reset owes,
accumulate every expense's shares in insertion order, then set every
`balance = round(paid - owe, 2)`. -/
def Ledger.balances (L : Ledger) : Except Err Ledger :=
  match L.expenses.foldlM applyExpense (resetOwes L.people) with
  | .error e => .error e
  | .ok accum =>
    .ok { L with people := accum.map (fun p =>
      { p with balance := round2 (p.paid - p.owe) }) }

/-! ## Settlement (src/ledger_new.py lines 175-225, `Ledger.settle`;
identical algorithm in src/ledger.py lines 107-139).  The printed
transactions become an explicit list; the while loop gets explicit fuel,
with termination proved separately. -/

structure Txn where
  debtor : String
  creditor : String
  amount : ℚ
  deriving Repr, DecidableEq

/-- Current balance of the person named `n` (the creditor/debtor dicts hold
references into `self.people`, so balances are read through the people
list). -/
def getBal (people : List Person) (n : String) : ℚ :=
  ((people.find? (fun p => p.name == n)).map Person.balance).getD 0

def updateBal (people : List Person) (n : String) (v : ℚ) : List Person :=
  people.map (fun p => if p.name == n then { p with balance := v } else p)

/-- Python `max(...)` over a nonempty sequence (`0` on `[]`, unreachable under
the loop guard). -/
def listMax : List ℚ → ℚ
  | [] => 0
  | x :: xs => xs.foldl max x

/-- Python `max(names, key=balance)`: first name attaining the maximum
balance, in iteration (insertion) order. -/
def pickMax (people : List Person) : List String → String
  | [] => ""
  | n :: ns => ns.foldl (fun best m =>
      if getBal people best < getBal people m then m else best) n

/-- Python `min(names, key=balance)`: first name attaining the minimum. -/
def pickMin (people : List Person) : List String → String
  | [] => ""
  | n :: ns => ns.foldl (fun best m =>
      if getBal people m < getBal people best then m else best) n

structure SettleState where
  people : List Person
  creditors : List String
  debtors : List String
  deriving Repr, DecidableEq

/-- The while-loop guard: `creditors and debtors and
max(p.balance for p in creditors.values()) > SETTLEMENT_TOLERANCE`. -/
def settleCond (s : SettleState) : Bool :=
  !s.creditors.isEmpty && !s.debtors.isEmpty &&
    decide (SETTLEMENT_TOLERANCE < listMax (s.creditors.map (getBal s.people)))

/-- One iteration of the settlement loop: pick extremes, transfer
`round(min(creditor.balance, abs(debtor.balance)), 2)`, update both balances
(rounded), and drop either party whose new absolute balance is within
tolerance. -/
def settleStep (s : SettleState) : Txn × SettleState :=
  let c := pickMax s.people s.creditors
  let d := pickMin s.people s.debtors
  let t := round2 (min (getBal s.people c) |getBal s.people d|)
  let newc := round2 (getBal s.people c - t)
  let newd := round2 (getBal s.people d + t)
  let people' := updateBal (updateBal s.people c newc) d newd
  let creditors' :=
    if |newc| ≤ SETTLEMENT_TOLERANCE then s.creditors.filter (fun n => !(n == c))
    else s.creditors
  let debtors' :=
    if |newd| ≤ SETTLEMENT_TOLERANCE then s.debtors.filter (fun n => !(n == d))
    else s.debtors
  (⟨d, c, t⟩, ⟨people', creditors', debtors'⟩)

/-- The settlement while-loop with explicit fuel: `none` means the fuel ran
out with the guard still true (never happens for sufficient fuel, proved
below). -/
def settleLoop : ℕ → SettleState → Option (List Txn × SettleState)
  | 0, s => if settleCond s then none else some ([], s)
  | fuel + 1, s =>
    if settleCond s then
      let step := settleStep s
      (settleLoop fuel step.2).map (fun r => (step.1 :: r.1, r.2))
    else some ([], s)

/-- The post-loop clamp: any remaining balance within tolerance becomes
exactly zero. -/
def clampPeople (people : List Person) : List Person :=
  people.map (fun p =>
    if |p.balance| ≤ SETTLEMENT_TOLERANCE then { p with balance := 0 } else p)

/-- Initial creditor/debtor partitions (`balance > 0` / `balance < 0`), in
people (dict insertion) order. -/
def Ledger.initSettleState (L : Ledger) : SettleState :=
  ⟨L.people,
    (L.people.filter (fun p => decide (0 < p.balance))).map Person.name,
    (L.people.filter (fun p => decide (p.balance < 0))).map Person.name⟩

/-- `Ledger.settle`: run the greedy loop, then clamp. Returns the emitted
transactions and the resulting ledger. -/
def Ledger.settle (L : Ledger) (fuel : ℕ) : Option (List Txn × Ledger) :=
  (settleLoop fuel L.initSettleState).map
    (fun r => (r.1, { L with people := clampPeople r.2.people }))

/-! ## Derived quantities used by the claims -/

/-- Sum of all balances. -/
def balancesSum (L : Ledger) : ℚ := (L.people.map Person.balance).sum

/-- Total creditor (positive) balance. -/
def posTotal (L : Ledger) : ℚ :=
  ((L.people.filter (fun p => decide (0 < p.balance))).map Person.balance).sum

/-- Sum of emitted transfer amounts. -/
def txnSum (ts : List Txn) : ℚ := (ts.map Txn.amount).sum

/-- Sum of the balances of the named people. -/
def sumBalOver (people : List Person) (ns : List String) : ℚ :=
  (ns.map (getBal people)).sum

/-- A rational that is a whole number of hundredths (what `round(_, 2)`
produces). -/
def IsCents (q : ℚ) : Prop := (100 * q).den = 1

instance (q : ℚ) : Decidable (IsCents q) :=
  inferInstanceAs (Decidable ((100 * q).den = 1))

/-- Ledgers reachable from empty by `add_person` with zero initial fields and
successful `add_expense` calls (any auto-create policy) — the construction
universe of the conservation claim. -/
inductive Built : Ledger → Prop where
  | empty : Built ⟨[], []⟩
  | person {L L' : Ledger} {n : String} :
      Built L → L.add_person n 0 0 0 = .ok L' → Built L'
  | expense {L L' : Ledger} {ac : Bool} {payer : String} {amount : ℚ}
      {participants : List String} {split : String} {kwargs : SplitKwargs} :
      Built L → L.add_expense ac payer amount participants split kwargs = .ok L' →
      Built L'

/-- The strategies whose computed shares always sum exactly to the expense
amount (equal and weighted splits; percent and exact splits may drift within
their own tolerances). -/
def exactSumSplit (e : Expense) : Bool :=
  match e.split with
  | .equal => true
  | .weights _ => true
  | .percent _ => false
  | .exact _ => false

/-- Names of the initial creditors, in people order. -/
def Ledger.creditorNames (L : Ledger) : List String :=
  (L.people.filter (fun p => decide (0 < p.balance))).map Person.name

/-- Projection of a person to the fields `balances` reads: name and paid. -/
def baseView (p : Person) : String × ℚ := (p.name, p.paid)

/-- Projection of a person to everything except the balance field: name,
paid, owe. -/
def coreView (p : Person) : String × ℚ × ℚ := (p.name, p.paid, p.owe)

/-- The success conditions of `PercentSplit.compute_shares` on the cleaned
percentage dict: key set matches the participants, every value is within
`[MIN_PERCENTAGE, MAX_PERCENTAGE]`, and the values sum to 100 within
`PERCENTAGE_TOLERANCE`. -/
def percentOk (participants : List String) (pc : List (String × ℚ)) : Prop :=
  sameKeySet pc participants = true
  ∧ (∀ kv ∈ pc, MIN_PERCENTAGE ≤ kv.2 ∧ kv.2 ≤ MAX_PERCENTAGE)
  ∧ |sumOverKeys pc participants - 100| ≤ PERCENTAGE_TOLERANCE

/-! ## Concrete scenarios used as counterexamples and witnesses -/

/-- Extract the ledger from a successful operation (scenario plumbing only). -/
def getOk (x : Except Err Ledger) : Ledger :=
  match x with
  | .ok l => l
  | .error _ => ⟨[], []⟩

/-- Scenario S1: eight people; `a` pays 0.03 split equally among the seven
others.  Every call is a valid `add_person` / `add_expense`. -/
def s1Build : Except Err Ledger := do
  let L0 : Ledger := ⟨[], []⟩
  let L1 ← L0.add_person "a" 0 0 0
  let L2 ← L1.add_person "p1" 0 0 0
  let L3 ← L2.add_person "p2" 0 0 0
  let L4 ← L3.add_person "p3" 0 0 0
  let L5 ← L4.add_person "p4" 0 0 0
  let L6 ← L5.add_person "p5" 0 0 0
  let L7 ← L6.add_person "p6" 0 0 0
  let L8 ← L7.add_person "p7" 0 0 0
  L8.add_expense false "a" 0.03 ["p1", "p2", "p3", "p4", "p5", "p6", "p7"]
    "equal" {}

/-- Scenario S1 after `recompute_balances()`. -/
def s1Bal : Ledger := getOk (s1Build >>= Ledger.balances)

/-- Scenario S2: `a` pays 0.01 entirely for `b`. -/
def s2Build : Except Err Ledger := do
  let L0 : Ledger := ⟨[], []⟩
  let L1 ← L0.add_person "a" 0 0 0
  let L2 ← L1.add_person "b" 0 0 0
  L2.add_expense false "a" 0.01 ["b"] "equal" {}

/-- Scenario S2 after `recompute_balances()`. -/
def s2Bal : Ledger := getOk (s2Build >>= Ledger.balances)

/-- Two registered people with no expenses (base of the deferred-validation
scenario). -/
def c7Base : Except Err Ledger := do
  let L0 : Ledger := ⟨[], []⟩
  let L1 ← L0.add_person "a" 0 0 0
  L1.add_person "b" 0 0 0

/-- The deferred-validation scenario: an expense with a negative weight is
accepted by `add_expense`. -/
def c7After : Except Err Ledger :=
  c7Base >>= fun L =>
    L.add_expense false "a" 10 ["a", "b"] "weights"
      { weights := some [("a", -1), ("b", 2)] }

/-- Witness scenario: the explicit ledger `{a, b}` with the single expense of
S2, before recomputation (exactly `getOk s2Build`). -/
def wL : Ledger :=
  ⟨[⟨"a", 0, 1/100, 0⟩, ⟨"b", 0, 0, 0⟩], [⟨"a", 1/100, ["b"], .equal⟩]⟩

/-- Witness scenario after `balances()`. -/
def wLB : Ledger :=
  ⟨[⟨"a", 1/100, 1/100, 0⟩, ⟨"b", -1/100, 0, 1/100⟩],
    [⟨"a", 1/100, ["b"], .equal⟩]⟩

/-- Witness scenario after `settle()` (no transactions; the clamp zeroes both
within-tolerance balances). -/
def wLS : Ledger :=
  ⟨[⟨"a", 0, 1/100, 0⟩, ⟨"b", 0, 0, 1/100⟩], [⟨"a", 1/100, ["b"], .equal⟩]⟩

/-- The two-person base ledger of the deferred-validation scenario
(`getOk c7Base`, spelled out). -/
def c7Lab : Ledger := ⟨[⟨"a", 0, 0, 0⟩, ⟨"b", 0, 0, 0⟩], []⟩

/-- The strategy parameters of the malformed-weights expense: `a` carries a
negative weight. -/
def c7Kwargs : SplitKwargs := ⟨some [("a", -1), ("b", 2)], none, none⟩

/-- The ledger after the malformed-weights `add_expense` succeeds
(`getOk c7After`, spelled out). -/
def c7Led : Ledger :=
  ⟨[⟨"a", 0, 10, 0⟩, ⟨"b", 0, 0, 0⟩],
    [⟨"a", 10, ["a", "b"], .weights [("a", -1), ("b", 2)]⟩]⟩

/-! ## Dictionary lemmas -/

theorem dictInsert_ne_nil (d : List (String × ℚ)) (k : String) (v : ℚ) :
    dictInsert d k v ≠ [] := by
  unfold dictInsert
  split
  · next h =>
    intro he
    rw [List.map_eq_nil_iff] at he
    subst he
    simp [dictMem] at h
  · simp

theorem foldl_dictInsert_ne_nil (l : List (String × ℚ))
    (acc : List (String × ℚ)) (h : acc ≠ []) :
    l.foldl (fun a kv => dictInsert a (cleanName kv.1) kv.2) acc ≠ [] := by
  induction l generalizing acc with
  | nil => simpa using h
  | cons x xs ih =>
    rw [List.foldl_cons]
    exact ih _ (dictInsert_ne_nil _ _ _)

theorem cleanDict_ne_nil (x : String × ℚ) (xs : List (String × ℚ)) :
    cleanDict (x :: xs) ≠ [] := by
  unfold cleanDict
  rw [List.foldl_cons]
  exact foldl_dictInsert_ne_nil xs _ (dictInsert_ne_nil _ _ _)

theorem foldl_sharesOf_general (f : String → ℚ) (ps : List String) :
    ∀ acc : List (String × ℚ), ps.Nodup →
      (∀ p ∈ ps, dictMem acc p = false) →
      ps.foldl (fun a p => dictInsert a p (f p)) acc
        = acc ++ ps.map (fun p => (p, f p)) := by
  induction ps with
  | nil => intro acc _ _; simp
  | cons x xs ih =>
    intro acc hnd hd
    rw [List.foldl_cons]
    have hx : dictMem acc x = false := hd x (List.mem_cons_self _ _)
    have hins : dictInsert acc x (f x) = acc ++ [(x, f x)] := by
      unfold dictInsert
      rw [hx]
      simp
    rw [hins, ih (acc ++ [(x, f x)]) (List.nodup_cons.mp hnd).2 ?fresh]
    · simp
    case fresh =>
      intro p hp
      have hpx : ¬(x = p) := by
        intro e
        exact (List.nodup_cons.mp hnd).1 (e ▸ hp)
      have hap : dictMem acc p = false := hd p (List.mem_cons_of_mem _ hp)
      simp only [dictMem, List.any_append, List.any_cons, List.any_nil,
        Bool.or_false, Bool.or_eq_false_iff]
      constructor
      · simpa [dictMem] using hap
      · simpa using hpx

theorem sharesOf_eq_map (f : String → ℚ) (ps : List String) (hnd : ps.Nodup) :
    sharesOf ps f = ps.map (fun p => (p, f p)) := by
  unfold sharesOf
  rw [foldl_sharesOf_general f ps [] hnd (fun p _ => rfl)]
  simp

theorem valuesSum_map (ps : List String) (f : String → ℚ) :
    valuesSum (ps.map (fun p => (p, f p))) = (ps.map f).sum := by
  unfold valuesSum
  rw [List.map_map]
  rfl

/-! ## Claim C10: equivalence of the two strategy implementations -/

/-- C10: for every amount, participant list and parameter dict, each of the
four strategy classes of split_strategies.py computes exactly the same result
(same share mapping on success, same failure otherwise) as its counterpart in
split_strategies_new.py. -/
theorem split_strategies_equivalent (amount : ℚ) (participants : List String)
    (params : List (String × ℚ)) :
    SplitsOld.equalShares amount participants
        = SplitsNew.equalShares amount participants
    ∧ SplitsOld.weightsShares amount participants params
        = SplitsNew.weightsShares amount participants params
    ∧ SplitsOld.percentShares amount participants params
        = SplitsNew.percentShares amount participants params
    ∧ SplitsOld.exactShares amount participants params
        = SplitsNew.exactShares amount participants params := by
  refine ⟨rfl, rfl, rfl, ?_⟩
  unfold SplitsOld.exactShares SplitsNew.exactShares
  cases params with
  | nil => rfl
  | cons x xs =>
    have h : (cleanDict (x :: xs)).isEmpty = false := by
      rcases hcd : cleanDict (x :: xs) with _ | _
      · exact absurd hcd (cleanDict_ne_nil x xs)
      · rfl
    simp [h]

/-! ## Claim C5: equal split -/

/-- C5: for every positive amount `A` and nonempty duplicate-free participant
list, `EqualSplit.compute_shares` returns exactly the mapping assigning
`A / N` to each participant (no rounding), and the returned shares sum to
`A`. -/
theorem equalShares_spec (A : ℚ) (ps : List String) (_hA : 0 < A)
    (hne : ps ≠ []) (hnd : ps.Nodup) :
    SplitsNew.equalShares A ps
        = .ok (ps.map (fun p => (p, A / (ps.length : ℚ))))
    ∧ valuesSum (ps.map (fun p => (p, A / (ps.length : ℚ)))) = A := by
  have hlen : ps.length ≠ 0 := by
    simpa [List.length_eq_zero] using hne
  constructor
  · unfold SplitsNew.equalShares
    rw [if_neg]
    · show Except.ok (sharesOf ps fun _ => A / (ps.length : ℚ)) = _
      rw [sharesOf_eq_map _ _ hnd]
    · simp [hlen]
  · rw [valuesSum_map]
    have hconst : ps.map (fun _ => A / (ps.length : ℚ))
        = List.replicate ps.length (A / (ps.length : ℚ)) := by
      induction ps with
      | nil => rfl
      | cons x xs ih => simp [List.replicate_succ, ih]
    rw [hconst, List.sum_replicate, nsmul_eq_mul]
    have : (ps.length : ℚ) ≠ 0 := by exact_mod_cast hlen
    field_simp

/-! ## Claim C6: percent split characterization -/

/-- C6 (amended): `PercentSplit.compute_shares` succeeds if and only if the
cleaned percentage key set equals the participant set, every cleaned value
lies in `[MIN_PERCENTAGE, MAX_PERCENTAGE]` (that is, `0.01 ≤ pct ≤ 100` —
not merely `pct > 0`), and the percentages sum to 100 within tolerance 0.01;
on success each participant's share is `amount * percentage / 100`. -/
theorem percentShares_spec (A : ℚ) (ps : List String)
    (pct : List (String × ℚ)) :
    ((∃ m, SplitsNew.percentShares A ps pct = .ok m)
        ↔ percentOk ps (cleanDict pct))
    ∧ (percentOk ps (cleanDict pct) →
        SplitsNew.percentShares A ps pct
          = .ok (sharesOf ps (fun p => A * dictGet (cleanDict pct) p / 100))) := by
  cases pct with
  | nil =>
    have hno : ¬ percentOk ps (cleanDict []) := by
      rintro ⟨hsk, _, hsum⟩
      have hps : ps = [] := by
        cases ps with
        | nil => rfl
        | cons q qs => simp [sameKeySet, dictMem, cleanDict] at hsk
      subst hps
      simp only [sumOverKeys, cleanDict, List.foldl_nil, List.map_nil,
        List.sum_nil, zero_sub, abs_neg, PERCENTAGE_TOLERANCE] at hsum
      norm_num at hsum
    refine ⟨⟨?_, fun h => absurd h hno⟩, fun h => absurd h hno⟩
    rintro ⟨m, hm⟩
    exact Except.noConfusion hm
  | cons x xs =>
    have hunf : SplitsNew.percentShares A ps (x :: xs)
        = (match (cleanDict (x :: xs)).find? (fun kv =>
              decide (kv.2 < MIN_PERCENTAGE) || decide (MAX_PERCENTAGE < kv.2)) with
          | some kv =>
            if kv.2 < MIN_PERCENTAGE then Except.error (Err.percentTooSmall kv.1)
            else Except.error (Err.percentTooLarge kv.1)
          | none =>
            if sameKeySet (cleanDict (x :: xs)) ps then
              if PERCENTAGE_TOLERANCE
                  < |sumOverKeys (cleanDict (x :: xs)) ps - 100| then
                Except.error Err.percentSumOff
              else
                Except.ok (sharesOf ps
                  (fun p => A * dictGet (cleanDict (x :: xs)) p / 100))
            else Except.error Err.percentMismatch) := rfl
    rw [hunf]
    cases hfind : (cleanDict (x :: xs)).find? (fun kv =>
        decide (kv.2 < MIN_PERCENTAGE) || decide (MAX_PERCENTAGE < kv.2)) with
    | some kv =>
      dsimp only
      have hkvmem : kv ∈ cleanDict (x :: xs) := List.mem_of_find?_eq_some hfind
      have hkvpred := List.find?_some hfind
      simp only [Bool.or_eq_true, decide_eq_true_eq] at hkvpred
      have hnot : ¬ percentOk ps (cleanDict (x :: xs)) := by
        rintro ⟨_, hrange, _⟩
        rcases hkvpred with h | h
        · exact absurd (hrange kv hkvmem).1 (not_le.mpr h)
        · exact absurd (hrange kv hkvmem).2 (not_le.mpr h)
      refine ⟨⟨?_, fun h => absurd h hnot⟩, fun h => absurd h hnot⟩
      rintro ⟨m, hm⟩
      split at hm <;> exact Except.noConfusion hm
    | none =>
      dsimp only
      have hall : ∀ kv ∈ cleanDict (x :: xs),
          MIN_PERCENTAGE ≤ kv.2 ∧ kv.2 ≤ MAX_PERCENTAGE := by
        intro kv hm
        have hp := List.find?_eq_none.mp hfind kv hm
        simp only [Bool.or_eq_true, decide_eq_true_eq, not_or, not_lt] at hp
        exact hp
      by_cases hsk : sameKeySet (cleanDict (x :: xs)) ps = true
      · by_cases hsum : PERCENTAGE_TOLERANCE
            < |sumOverKeys (cleanDict (x :: xs)) ps - 100|
        · have hnot : ¬ percentOk ps (cleanDict (x :: xs)) := by
            rintro ⟨_, _, h3⟩
            exact absurd h3 (not_le.mpr hsum)
          rw [if_pos hsk, if_pos hsum]
          refine ⟨⟨?_, fun h => absurd h hnot⟩, fun h => absurd h hnot⟩
          rintro ⟨m, hm⟩
          exact Except.noConfusion hm
        · rw [if_pos hsk, if_neg hsum]
          have hok : percentOk ps (cleanDict (x :: xs)) :=
            ⟨hsk, hall, not_lt.mp hsum⟩
          exact ⟨⟨fun _ => hok, fun _ => ⟨_, rfl⟩⟩, fun _ => rfl⟩
      · rw [if_neg hsk]
        have hnot : ¬ percentOk ps (cleanDict (x :: xs)) := fun h => hsk h.1
        refine ⟨⟨?_, fun h => absurd h hnot⟩, fun h => absurd h hnot⟩
        rintro ⟨m, hm⟩
        exact Except.noConfusion hm

/-! ## Balance recomputation machinery (claims C4, C8, C1) -/

theorem names_eq_of_coreView_eq {ppl1 ppl2 : List Person}
    (h : ppl1.map coreView = ppl2.map coreView) :
    ppl1.map Person.name = ppl2.map Person.name := by
  have h1 := congrArg (List.map (fun v : String × ℚ × ℚ => v.1)) h
  simpa [List.map_map, Function.comp, coreView] using h1

theorem any_of_map_name (ppl : List Person) (n : String) :
    (ppl.map Person.name).any (fun nm => nm == n)
      = ppl.any (fun p => p.name == n) := by
  induction ppl with
  | nil => rfl
  | cons p rest ih => simp only [List.map_cons, List.any_cons, ih]

theorem any_name_congr {ppl1 ppl2 : List Person} (n : String)
    (h : ppl1.map Person.name = ppl2.map Person.name) :
    ppl1.any (fun p => p.name == n) = ppl2.any (fun p => p.name == n) := by
  rw [← any_of_map_name, ← any_of_map_name, h]

theorem addShare_congr {ppl1 ppl2 : List Person} (n : String) (s : ℚ)
    (h : ppl1.map coreView = ppl2.map coreView) :
    (addShare ppl1 n s).map (List.map coreView)
      = (addShare ppl2 n s).map (List.map coreView) := by
  have hany := any_name_congr n (names_eq_of_coreView_eq h)
  unfold addShare
  rw [hany]
  by_cases hc : ppl2.any (fun p => p.name == n) = true
  · rw [if_pos hc, if_pos hc]
    dsimp [Except.map]
    congr 1
    have key : ∀ ppl : List Person,
        (ppl.map (fun p =>
          if p.name == n then { p with owe := p.owe + s } else p)).map coreView
        = (ppl.map coreView).map (fun v =>
            if v.1 == n then (v.1, v.2.1, v.2.2 + s) else v) := by
      intro ppl
      rw [List.map_map, List.map_map]
      apply List.map_congr_left
      intro p _
      by_cases hp : p.name = n
      · simp [coreView, hp]
      · simp [coreView, hp]
    rw [key, key, h]
  · rw [if_neg hc, if_neg hc]

theorem addShares_congr (sh : List (String × ℚ)) :
    ∀ {ppl1 ppl2 : List Person},
      ppl1.map coreView = ppl2.map coreView →
      (addShares ppl1 sh).map (List.map coreView)
        = (addShares ppl2 sh).map (List.map coreView) := by
  induction sh with
  | nil =>
    intro ppl1 ppl2 h
    unfold addShares
    simp only [List.foldlM_nil]
    exact congrArg Except.ok h
  | cons kv rest ih =>
    intro ppl1 ppl2 h
    unfold addShares at ih ⊢
    rw [List.foldlM_cons, List.foldlM_cons]
    have hstep := addShare_congr kv.1 kv.2 h
    cases h1 : addShare ppl1 kv.1 kv.2 with
    | error e =>
      rw [h1] at hstep
      cases h2 : addShare ppl2 kv.1 kv.2 with
      | error f =>
        rw [h2] at hstep
        simp only [Except.map] at hstep
        cases hstep
        rfl
      | ok a2 =>
        rw [h2] at hstep
        simp [Except.map] at hstep
    | ok a1 =>
      rw [h1] at hstep
      cases h2 : addShare ppl2 kv.1 kv.2 with
      | error f =>
        rw [h2] at hstep
        simp [Except.map] at hstep
      | ok a2 =>
        rw [h2] at hstep
        simp only [Except.map, Except.ok.injEq] at hstep
        simpa using ih hstep

theorem applyExpense_congr (e : Expense) {ppl1 ppl2 : List Person}
    (h : ppl1.map coreView = ppl2.map coreView) :
    (applyExpense ppl1 e).map (List.map coreView)
      = (applyExpense ppl2 e).map (List.map coreView) := by
  unfold applyExpense
  cases e.computeShares with
  | error err => rfl
  | ok sh => exact addShares_congr sh h

theorem foldExpenses_congr (es : List Expense) :
    ∀ {ppl1 ppl2 : List Person},
      ppl1.map coreView = ppl2.map coreView →
      (es.foldlM applyExpense ppl1).map (List.map coreView)
        = (es.foldlM applyExpense ppl2).map (List.map coreView) := by
  induction es with
  | nil =>
    intro ppl1 ppl2 h
    simp only [List.foldlM_nil]
    exact congrArg Except.ok h
  | cons e rest ih =>
    intro ppl1 ppl2 h
    rw [List.foldlM_cons, List.foldlM_cons]
    have hstep := applyExpense_congr e h
    cases h1 : applyExpense ppl1 e with
    | error f =>
      rw [h1] at hstep
      cases h2 : applyExpense ppl2 e with
      | error g =>
        rw [h2] at hstep
        simp only [Except.map] at hstep
        cases hstep
        rfl
      | ok a2 =>
        rw [h2] at hstep
        simp [Except.map] at hstep
    | ok a1 =>
      rw [h1] at hstep
      cases h2 : applyExpense ppl2 e with
      | error g =>
        rw [h2] at hstep
        simp [Except.map] at hstep
      | ok a2 =>
        rw [h2] at hstep
        simp only [Except.map, Except.ok.injEq] at hstep
        simpa using ih hstep

theorem resetOwes_coreView {ppl1 ppl2 : List Person}
    (h : ppl1.map baseView = ppl2.map baseView) :
    (resetOwes ppl1).map coreView = (resetOwes ppl2).map coreView := by
  unfold resetOwes
  rw [List.map_map, List.map_map]
  have key : ∀ ppl : List Person,
      ppl.map (coreView ∘ fun p => { p with owe := 0 })
        = (ppl.map baseView).map (fun v => (v.1, v.2, 0)) := by
    intro ppl
    rw [List.map_map]
    rfl
  rw [key, key, h]

/-- `balances` reads only each person's name and paid field (plus the
expense list): its result is identical on ledgers agreeing on those. -/
theorem balances_congr {L1 L2 : Ledger}
    (hp : L1.people.map baseView = L2.people.map baseView)
    (he : L1.expenses = L2.expenses) :
    L1.balances = L2.balances := by
  unfold Ledger.balances
  rw [he]
  have hreset := resetOwes_coreView hp
  have hfold := foldExpenses_congr L2.expenses hreset
  cases h1 : L2.expenses.foldlM applyExpense (resetOwes L1.people) with
  | error f =>
    rw [h1] at hfold
    cases h2 : L2.expenses.foldlM applyExpense (resetOwes L2.people) with
    | error g =>
      rw [h2] at hfold
      simp only [Except.map] at hfold
      cases hfold
      rfl
    | ok a2 =>
      rw [h2] at hfold
      simp [Except.map] at hfold
  | ok a1 =>
    rw [h1] at hfold
    cases h2 : L2.expenses.foldlM applyExpense (resetOwes L2.people) with
    | error g =>
      rw [h2] at hfold
      simp [Except.map] at hfold
    | ok a2 =>
      rw [h2] at hfold
      simp only [Except.map, Except.ok.injEq] at hfold
      have key : ∀ ppl : List Person,
          ppl.map (fun p => { p with balance := round2 (p.paid - p.owe) })
            = (ppl.map coreView).map (fun v =>
                ⟨v.1, round2 (v.2.1 - v.2.2), v.2.1, v.2.2⟩) := by
        intro ppl
        rw [List.map_map]
        apply List.map_congr_left
        intro p _
        rfl
      simp only [Except.ok.injEq, Ledger.mk.injEq]
      constructor
      · rw [key, key, hfold]
      · trivial

theorem addShare_baseView {ppl ppl' : List Person} {n : String} {s : ℚ}
    (h : addShare ppl n s = .ok ppl') :
    ppl'.map baseView = ppl.map baseView := by
  unfold addShare at h
  split at h
  · cases h
    rw [List.map_map]
    apply List.map_congr_left
    intro p _
    by_cases hp : p.name = n
    · simp [baseView, Function.comp, hp]
    · simp [baseView, Function.comp, hp]
  · cases h

theorem addShares_baseView (sh : List (String × ℚ)) :
    ∀ {ppl ppl' : List Person}, addShares ppl sh = .ok ppl' →
      ppl'.map baseView = ppl.map baseView := by
  induction sh with
  | nil =>
    intro ppl ppl' h
    unfold addShares at h
    simp only [List.foldlM_nil] at h
    cases h
    rfl
  | cons kv rest ih =>
    intro ppl ppl' h
    unfold addShares at h ih
    rw [List.foldlM_cons] at h
    cases h1 : addShare ppl kv.1 kv.2 with
    | error f => rw [h1] at h; cases h
    | ok a =>
      rw [h1] at h
      rw [ih h, addShare_baseView h1]

theorem applyExpense_baseView {e : Expense} {ppl ppl' : List Person}
    (h : applyExpense ppl e = .ok ppl') :
    ppl'.map baseView = ppl.map baseView := by
  unfold applyExpense at h
  cases hc : e.computeShares with
  | error f => rw [hc] at h; cases h
  | ok sh =>
    rw [hc] at h
    exact addShares_baseView sh h

theorem foldExpenses_baseView (es : List Expense) :
    ∀ {ppl ppl' : List Person}, es.foldlM applyExpense ppl = .ok ppl' →
      ppl'.map baseView = ppl.map baseView := by
  induction es with
  | nil =>
    intro ppl ppl' h
    simp only [List.foldlM_nil] at h
    cases h
    rfl
  | cons e rest ih =>
    intro ppl ppl' h
    rw [List.foldlM_cons] at h
    cases h1 : applyExpense ppl e with
    | error f => rw [h1] at h; cases h
    | ok a =>
      rw [h1] at h
      rw [ih h, applyExpense_baseView h1]

/-- A successful `balances` preserves every person's name and paid field, and
the expense list. -/
theorem balances_baseView {L L' : Ledger} (h : L.balances = .ok L') :
    L'.people.map baseView = L.people.map baseView
    ∧ L'.expenses = L.expenses := by
  unfold Ledger.balances at h
  cases hf : L.expenses.foldlM applyExpense (resetOwes L.people) with
  | error f => rw [hf] at h; cases h
  | ok accum =>
    rw [hf] at h
    cases h
    constructor
    · have h1 := foldExpenses_baseView L.expenses hf
      have h2 : (resetOwes L.people).map baseView = L.people.map baseView := by
        unfold resetOwes
        rw [List.map_map]
        rfl
      rw [List.map_map]
      have h3 : (accum.map (baseView ∘ fun p =>
          { p with balance := round2 (p.paid - p.owe) })) = accum.map baseView := by
        apply List.map_congr_left
        intro p _
        rfl
      rw [h3, h1, h2]
    · rfl

/-- Idempotence of `balances`, shared by several claims. -/
theorem balances_idem {L L' : Ledger} (h : L.balances = .ok L') :
    L'.balances = .ok L' := by
  have hv := balances_baseView h
  rw [balances_congr hv.1 hv.2]
  exact h

/-! ## Claim C4 -/

/-- C4: calling `recompute_balances()` (the `balances()` method) twice in a
row leaves the ledger — every person's paid, owed and balance field —
identical to the result of one call: the second call changes nothing. -/
theorem balances_idempotent (L L' : Ledger) (h : L.balances = .ok L') :
    L'.balances = .ok L' :=
  balances_idem h

/-! ## Settlement frame lemmas (claims C8, C2) -/

theorem updateBal_coreView (ppl : List Person) (n : String) (v : ℚ) :
    (updateBal ppl n v).map coreView = ppl.map coreView := by
  unfold updateBal
  rw [List.map_map]
  apply List.map_congr_left
  intro p _
  by_cases hp : p.name = n
  · simp [coreView, hp]
  · simp [coreView, hp]

theorem settleStep_coreView (s : SettleState) :
    (settleStep s).2.people.map coreView = s.people.map coreView := by
  unfold settleStep
  dsimp only
  rw [updateBal_coreView, updateBal_coreView]

theorem settleLoop_coreView :
    ∀ (fuel : ℕ) (s : SettleState) (ts : List Txn) (sf : SettleState),
      settleLoop fuel s = some (ts, sf) →
      sf.people.map coreView = s.people.map coreView := by
  intro fuel
  induction fuel with
  | zero =>
    intro s ts sf h
    unfold settleLoop at h
    split at h
    · cases h
    · cases h
      rfl
  | succ n ih =>
    intro s ts sf h
    unfold settleLoop at h
    split at h
    · rcases Option.map_eq_some'.mp h with ⟨r, hr, hre⟩
      cases hre
      rw [ih _ r.1 r.2 hr, settleStep_coreView]
    · cases h
      rfl

theorem clampPeople_coreView (ppl : List Person) :
    (clampPeople ppl).map coreView = ppl.map coreView := by
  unfold clampPeople
  rw [List.map_map]
  apply List.map_congr_left
  intro p _
  by_cases hp : |p.balance| ≤ SETTLEMENT_TOLERANCE
  · simp [coreView, hp]
  · simp [coreView, hp]

/-- `settle` leaves the expense list untouched and changes only balance
fields (names, paid and owe are preserved). -/
theorem settle_frame {L : Ledger} {fuel : ℕ} {ts : List Txn} {L2 : Ledger}
    (h : L.settle fuel = some (ts, L2)) :
    L2.expenses = L.expenses
    ∧ L2.people.map coreView = L.people.map coreView := by
  unfold Ledger.settle at h
  rcases Option.map_eq_some'.mp h with ⟨r, hr, hre⟩
  cases hre
  constructor
  · rfl
  · rw [clampPeople_coreView,
      settleLoop_coreView fuel L.initSettleState r.1 r.2 hr]
    rfl

/-! ## Claim C8 -/

/-- C8: `settle()` does not modify the stored expense list nor any person's
paid or owed field — only balances — and therefore calling
`recompute_balances()` after `settle()` restores every balance to its
pre-settlement (post-recompute) value. -/
theorem settle_frame_and_restore (L L1 : Ledger) (fuel : ℕ) (ts : List Txn)
    (L2 : Ledger) (hb : L.balances = .ok L1)
    (hs : L1.settle fuel = some (ts, L2)) :
    L2.expenses = L1.expenses
    ∧ L2.people.map coreView = L1.people.map coreView
    ∧ L2.balances = .ok L1 := by
  obtain ⟨hex, hcv⟩ := settle_frame hs
  refine ⟨hex, hcv, ?_⟩
  have hbv : L2.people.map baseView = L1.people.map baseView := by
    have h2 := congrArg (List.map (fun v : String × ℚ × ℚ => (v.1, v.2.1))) hcv
    simpa [List.map_map, Function.comp, coreView, baseView] using h2
  rw [balances_congr hbv hex]
  exact balances_idem hb

/-! ## Claim C2 (amended) -/

/-- C2 (amended): after `settle()`, every balance lying within the settlement
tolerance has been clamped to exactly 0, so every final balance is either
exactly 0 or exceeds the tolerance in absolute value.  (It is not true that
every final balance is within tolerance: the greedy loop can exhaust one side
and strand the other.) -/
theorem settle_zero_or_beyond_tolerance (L : Ledger) (fuel : ℕ)
    (ts : List Txn) (L2 : Ledger) (h : L.settle fuel = some (ts, L2)) :
    ∀ p ∈ L2.people, p.balance = 0 ∨ SETTLEMENT_TOLERANCE < |p.balance| := by
  unfold Ledger.settle at h
  rcases Option.map_eq_some'.mp h with ⟨r, hr, hre⟩
  cases hre
  intro p hp
  simp only [clampPeople, List.mem_map] at hp
  obtain ⟨q, hq, rfl⟩ := hp
  by_cases hb : |q.balance| ≤ SETTLEMENT_TOLERANCE
  · left
    simp [hb]
  · right
    rw [if_neg hb]
    exact not_le.mp hb

/-! ## Cents arithmetic (claims C3, C9) -/

theorem isCents_iff (q : ℚ) : IsCents q ↔ ∃ k : ℤ, q = (k : ℚ) / 100 := by
  constructor
  · intro h
    refine ⟨(100 * q).num, ?_⟩
    have h100 : (((100 * q).num : ℤ) : ℚ) = 100 * q :=
      (Rat.den_eq_one_iff _).mp h
    rw [h100]
    field_simp
  · rintro ⟨k, rfl⟩
    unfold IsCents
    have he : (100 : ℚ) * ((k : ℚ) / 100) = (k : ℚ) := by field_simp
    rw [he]
    exact Rat.den_intCast k

theorem isCents_add {a b : ℚ} (ha : IsCents a) (hb : IsCents b) :
    IsCents (a + b) := by
  rcases (isCents_iff a).mp ha with ⟨j, rfl⟩
  rcases (isCents_iff b).mp hb with ⟨k, rfl⟩
  refine (isCents_iff _).mpr ⟨j + k, ?_⟩
  push_cast
  ring

theorem isCents_neg {a : ℚ} (ha : IsCents a) : IsCents (-a) := by
  rcases (isCents_iff a).mp ha with ⟨j, rfl⟩
  refine (isCents_iff _).mpr ⟨-j, ?_⟩
  push_cast
  ring

theorem isCents_sub {a b : ℚ} (ha : IsCents a) (hb : IsCents b) :
    IsCents (a - b) := by
  rw [sub_eq_add_neg]
  exact isCents_add ha (isCents_neg hb)

theorem isCents_abs {a : ℚ} (ha : IsCents a) : IsCents |a| := by
  rcases abs_choice a with h | h
  · rw [h]; exact ha
  · rw [h]; exact isCents_neg ha

theorem isCents_min {a b : ℚ} (ha : IsCents a) (hb : IsCents b) :
    IsCents (min a b) := by
  rcases min_choice a b with h | h
  · rw [h]; exact ha
  · rw [h]; exact hb

theorem isCents_zero : IsCents 0 := (isCents_iff 0).mpr ⟨0, by norm_num⟩

theorem round2_isCents (q : ℚ) : IsCents (round2 q) :=
  (isCents_iff _).mpr ⟨round (100 * q), rfl⟩

theorem round2_of_isCents {q : ℚ} (h : IsCents q) : round2 q = q := by
  rcases (isCents_iff q).mp h with ⟨k, rfl⟩
  unfold round2
  have he : (100 : ℚ) * ((k : ℚ) / 100) = (k : ℚ) := by field_simp
  rw [he, round_intCast]

theorem isCents_two_cents_le {q : ℚ} (h : IsCents q) (hq : 1 / 100 < q) :
    2 / 100 ≤ q := by
  rcases (isCents_iff q).mp h with ⟨k, rfl⟩
  have h1 : (1 : ℚ) < (k : ℚ) := by linarith
  have h2 : (1 : ℤ) < k := by exact_mod_cast h1
  have h3 : (2 : ℤ) ≤ k := h2
  have h4 : (2 : ℚ) ≤ (k : ℚ) := by exact_mod_cast h3
  linarith

theorem isCents_le_neg_cent {q : ℚ} (h : IsCents q) (hq : q < 0) :
    q ≤ -(1 / 100) := by
  rcases (isCents_iff q).mp h with ⟨k, rfl⟩
  have h1 : (k : ℚ) < 0 := by linarith
  have h2 : k < 0 := by exact_mod_cast h1
  have h3 : k ≤ -1 := by omega
  have h4 : (k : ℚ) ≤ (-1 : ℚ) := by exact_mod_cast h3
  linarith

/-! ## Balance lookup and update lemmas (claims C3, C9) -/

theorem getBal_eq_zero_of_not_any {ppl : List Person} {n : String}
    (h : ppl.any (fun p => p.name == n) = false) : getBal ppl n = 0 := by
  unfold getBal
  have : ppl.find? (fun p => p.name == n) = none := by
    rw [List.find?_eq_none]
    intro p hp
    have := List.any_eq_false.mp h p hp
    simpa using this
  rw [this]
  rfl

theorem any_of_getBal_ne_zero {ppl : List Person} {n : String}
    (h : getBal ppl n ≠ 0) : ppl.any (fun p => p.name == n) = true := by
  by_contra hc
  exact h (getBal_eq_zero_of_not_any (Bool.eq_false_iff.mpr hc))

theorem getBal_cons (q : Person) (rest : List Person) (m : String) :
    getBal (q :: rest) m
      = if q.name == m then q.balance else getBal rest m := by
  by_cases h : (q.name == m) = true
  · unfold getBal
    rw [List.find?_cons_of_pos rest
        (show (fun p : Person => p.name == m) q = true from h), if_pos h]
    rfl
  · unfold getBal
    rw [List.find?_cons_of_neg rest
        (show ¬(fun p : Person => p.name == m) q = true from h), if_neg h]

theorem updateBal_cons (q : Person) (rest : List Person) (n : String) (v : ℚ) :
    updateBal (q :: rest) n v
      = (if q.name == n then { q with balance := v } else q)
          :: updateBal rest n v := rfl

theorem getBal_update_other (ppl : List Person) (n m : String) (v : ℚ)
    (hnm : m ≠ n) : getBal (updateBal ppl n v) m = getBal ppl m := by
  induction ppl with
  | nil => rfl
  | cons q rest ih =>
    rw [updateBal_cons]
    by_cases hqn : (q.name == n) = true
    · rw [if_pos hqn, getBal_cons, getBal_cons]
      have hqm : ¬((q.name == m) = true) := by
        intro hh
        have e1 : q.name = n := by simpa using hqn
        have e2 : q.name = m := by simpa using hh
        exact hnm (e2 ▸ e1)
      have hqm' : ¬((({ q with balance := v } : Person).name == m) = true) := hqm
      rw [if_neg hqm', if_neg hqm]
      exact ih
    · rw [if_neg hqn, getBal_cons, getBal_cons]
      by_cases hqm : (q.name == m) = true
      · rw [if_pos hqm, if_pos hqm]
      · rw [if_neg hqm, if_neg hqm]
        exact ih

theorem getBal_update_self (ppl : List Person) (n : String) (v : ℚ)
    (h : ppl.any (fun p => p.name == n) = true) :
    getBal (updateBal ppl n v) n = v := by
  induction ppl with
  | nil => simp at h
  | cons q rest ih =>
    rw [updateBal_cons]
    by_cases hqn : (q.name == n) = true
    · rw [if_pos hqn, getBal_cons]
      have hupd : ((({ q with balance := v } : Person).name == n) = true) := hqn
      rw [if_pos hupd]
    · rw [if_neg hqn, getBal_cons]
      rw [if_neg hqn]
      have h2 : rest.any (fun p => p.name == n) = true := by
        rcases List.any_eq_true.mp h with ⟨p, hp, hpn⟩
        rcases List.mem_cons.mp hp with rfl | hp2
        · exact absurd hpn hqn
        · exact List.any_eq_true.mpr ⟨p, hp2, hpn⟩
      exact ih h2

theorem updateBal_cents {ppl : List Person} {n : String} {v : ℚ}
    (hppl : ∀ p ∈ ppl, IsCents p.balance) (hv : IsCents v) :
    ∀ p ∈ updateBal ppl n v, IsCents p.balance := by
  intro p hp
  unfold updateBal at hp
  rcases List.mem_map.mp hp with ⟨q, hq, rfl⟩
  by_cases hqn : q.name = n
  · simp only [hqn, beq_self_eq_true, if_true]
    exact hv
  · simp only [beq_iff_eq, hqn, if_false]
    exact hppl q hq

theorem getBal_cents {ppl : List Person} (h : ∀ p ∈ ppl, IsCents p.balance)
    (n : String) : IsCents (getBal ppl n) := by
  unfold getBal
  cases hf : ppl.find? (fun p => p.name == n) with
  | none => exact isCents_zero
  | some p => exact h p (List.mem_of_find?_eq_some hf)

/-! ## Sums over name lists (claims C3, C9) -/

theorem sumBalOver_update_not_mem (ppl : List Person) (ns : List String)
    (n : String) (v : ℚ) (h : n ∉ ns) :
    sumBalOver (updateBal ppl n v) ns = sumBalOver ppl ns := by
  unfold sumBalOver
  congr 1
  apply List.map_congr_left
  intro m hm
  exact getBal_update_other ppl n m v (fun e => h (e ▸ hm))

theorem sumBalOver_update_mem (ppl : List Person) (ns : List String)
    (c : String) (v : ℚ) (hnd : ns.Nodup) (hc : c ∈ ns)
    (hpres : ppl.any (fun p => p.name == c) = true) :
    sumBalOver (updateBal ppl c v) ns = sumBalOver ppl ns - getBal ppl c + v := by
  induction ns with
  | nil => simp at hc
  | cons m ms ih =>
    unfold sumBalOver at ih ⊢
    rcases List.mem_cons.mp hc with rfl | hc2
    · have hnotin : c ∉ ms := (List.nodup_cons.mp hnd).1
      rw [List.map_cons, List.map_cons, List.sum_cons, List.sum_cons,
        getBal_update_self ppl c v hpres]
      have : (ms.map (getBal (updateBal ppl c v))).sum = (ms.map (getBal ppl)).sum := by
        apply congrArg
        apply List.map_congr_left
        intro m' hm'
        exact getBal_update_other ppl c m' v (fun e => hnotin (e ▸ hm'))
      rw [this]
      ring
    · have hmc : m ≠ c := by
        intro e
        exact (List.nodup_cons.mp hnd).1 (e ▸ hc2)
      rw [List.map_cons, List.map_cons, List.sum_cons, List.sum_cons,
        getBal_update_other ppl c m v hmc, ih (List.nodup_cons.mp hnd).2 hc2]
      ring

theorem sumBalOver_filter_ne (ppl : List Person) (ns : List String)
    (c : String) (hnd : ns.Nodup) (hc : c ∈ ns) :
    sumBalOver ppl (ns.filter (fun n => !(n == c)))
      = sumBalOver ppl ns - getBal ppl c := by
  induction ns with
  | nil => simp at hc
  | cons m ms ih =>
    unfold sumBalOver at ih ⊢
    rcases List.mem_cons.mp hc with rfl | hc2
    · have hnotin : c ∉ ms := (List.nodup_cons.mp hnd).1
      have hms : ms.filter (fun n => !(n == c)) = ms := by
        apply List.filter_eq_self.mpr
        intro n hn
        simp only [Bool.not_eq_true']
        exact beq_eq_false_iff_ne.mpr (fun e => hnotin (e ▸ hn))
      rw [List.filter_cons]
      simp only [beq_self_eq_true, Bool.not_true]
      rw [if_neg Bool.false_ne_true, hms, List.map_cons, List.sum_cons]
      ring
    · have hmc : (m == c) = false := by
        apply beq_eq_false_iff_ne.mpr
        intro e
        exact (List.nodup_cons.mp hnd).1 (e ▸ hc2)
      rw [List.filter_cons]
      simp only [hmc, Bool.not_false]
      rw [if_pos trivial, List.map_cons, List.map_cons, List.sum_cons,
        List.sum_cons, ih (List.nodup_cons.mp hnd).2 hc2]
      ring

theorem sumBalOver_nonneg (ppl : List Person) (ns : List String)
    (h : ∀ n ∈ ns, 0 < getBal ppl n) : 0 ≤ sumBalOver ppl ns := by
  unfold sumBalOver
  apply List.sum_nonneg
  intro x hx
  rcases List.mem_map.mp hx with ⟨n, hn, rfl⟩
  exact (h n hn).le

/-! ## Pick lemmas: Python max/min with key (claims C3, C9) -/

theorem foldl_pickMax_mem (ppl : List Person) (ns : List String) :
    ∀ b : String,
      (ns.foldl (fun best m =>
          if getBal ppl best < getBal ppl m then m else best) b) = b
      ∨ (ns.foldl (fun best m =>
          if getBal ppl best < getBal ppl m then m else best) b) ∈ ns := by
  induction ns with
  | nil =>
    intro b
    left
    rfl
  | cons m ms ih =>
    intro b
    rw [List.foldl_cons]
    rcases ih (if getBal ppl b < getBal ppl m then m else b) with h | h
    · rw [h]
      by_cases hb : getBal ppl b < getBal ppl m
      · right
        rw [if_pos hb]
        exact List.mem_cons_self _ _
      · left
        rw [if_neg hb]
    · right
      exact List.mem_cons_of_mem _ h

theorem foldl_pickMax_ge (ppl : List Person) (ns : List String) :
    ∀ b : String,
      List.foldl max (getBal ppl b) (ns.map (getBal ppl))
        ≤ getBal ppl (ns.foldl (fun best m =>
            if getBal ppl best < getBal ppl m then m else best) b) := by
  induction ns with
  | nil =>
    intro b
    exact le_refl _
  | cons m ms ih =>
    intro b
    rw [List.map_cons, List.foldl_cons, List.foldl_cons]
    have hstep : max (getBal ppl b) (getBal ppl m)
        = getBal ppl (if getBal ppl b < getBal ppl m then m else b) := by
      by_cases hb : getBal ppl b < getBal ppl m
      · rw [if_pos hb, max_eq_right hb.le]
      · rw [if_neg hb, max_eq_left (not_lt.mp hb)]
    rw [hstep]
    exact ih _

theorem pickMax_mem (ppl : List Person) (ns : List String) (h : ns ≠ []) :
    pickMax ppl ns ∈ ns := by
  cases ns with
  | nil => exact absurd rfl h
  | cons n ms =>
    unfold pickMax
    dsimp only
    rcases foldl_pickMax_mem ppl ms n with h2 | h2
    · rw [h2]
      exact List.mem_cons_self _ _
    · exact List.mem_cons_of_mem _ h2

theorem listMax_le_pickMax (ppl : List Person) (ns : List String)
    (h : ns ≠ []) :
    listMax (ns.map (getBal ppl)) ≤ getBal ppl (pickMax ppl ns) := by
  cases ns with
  | nil => exact absurd rfl h
  | cons n ms =>
    unfold pickMax listMax
    dsimp only
    rw [List.map_cons]
    dsimp only
    exact foldl_pickMax_ge ppl ms n

theorem foldl_pickMin_mem (ppl : List Person) (ns : List String) :
    ∀ b : String,
      (ns.foldl (fun best m =>
          if getBal ppl m < getBal ppl best then m else best) b) = b
      ∨ (ns.foldl (fun best m =>
          if getBal ppl m < getBal ppl best then m else best) b) ∈ ns := by
  induction ns with
  | nil =>
    intro b
    left
    rfl
  | cons m ms ih =>
    intro b
    rw [List.foldl_cons]
    rcases ih (if getBal ppl m < getBal ppl b then m else b) with h | h
    · rw [h]
      by_cases hb : getBal ppl m < getBal ppl b
      · right
        rw [if_pos hb]
        exact List.mem_cons_self _ _
      · left
        rw [if_neg hb]
    · right
      exact List.mem_cons_of_mem _ h

theorem pickMin_mem (ppl : List Person) (ns : List String) (h : ns ≠ []) :
    pickMin ppl ns ∈ ns := by
  cases ns with
  | nil => exact absurd rfl h
  | cons n ms =>
    unfold pickMin
    dsimp only
    rcases foldl_pickMin_mem ppl ms n with h2 | h2
    · rw [h2]
      exact List.mem_cons_self _ _
    · exact List.mem_cons_of_mem _ h2

/-! ## Numeric values of the scientific-notation constants -/

section NumericFacts

attribute [local semireducible] Rat.add Rat.mul Rat.inv Rat.sub Rat.ofScientific

theorem tolerance_value : SETTLEMENT_TOLERANCE = 1 / 100 := by decide

theorem tolerance_pos : 0 < SETTLEMENT_TOLERANCE := by decide

end NumericFacts

/-! ## Decomposition of the settlement loop guard -/

theorem settleCond_iff (s : SettleState) : settleCond s = true ↔
    s.creditors ≠ [] ∧ s.debtors ≠ [] ∧
      SETTLEMENT_TOLERANCE < listMax (s.creditors.map (getBal s.people)) := by
  unfold settleCond
  simp [Bool.and_eq_true, List.isEmpty_iff, decide_eq_true_eq, and_assoc]

/-! ## One settlement step, fully characterized (claims C3, C9) -/

theorem settleStep_spec (s : SettleState)
    (hcond : settleCond s = true)
    (hcents : ∀ p ∈ s.people, IsCents p.balance)
    (hdneg : ∀ n ∈ s.debtors, getBal s.people n < 0)
    (hdisj : ∀ n ∈ s.debtors, n ∉ s.creditors) :
    ∃ c d t,
      c = pickMax s.people s.creditors
      ∧ d = pickMin s.people s.debtors
      ∧ t = min (getBal s.people c) |getBal s.people d|
      ∧ settleStep s
          = (⟨d, c, t⟩,
             ⟨updateBal (updateBal s.people c (getBal s.people c - t)) d
                (getBal s.people d + t),
              if |getBal s.people c - t| ≤ SETTLEMENT_TOLERANCE then
                s.creditors.filter (fun n => !(n == c))
              else s.creditors,
              if |getBal s.people d + t| ≤ SETTLEMENT_TOLERANCE then
                s.debtors.filter (fun n => !(n == d))
              else s.debtors⟩)
      ∧ c ∈ s.creditors ∧ d ∈ s.debtors ∧ c ≠ d
      ∧ SETTLEMENT_TOLERANCE < getBal s.people c
      ∧ getBal s.people d < 0
      ∧ IsCents t ∧ 1 / 100 ≤ t
      ∧ t ≤ getBal s.people c ∧ t ≤ -(getBal s.people d) := by
  obtain ⟨hcne, hdne, hmax⟩ := (settleCond_iff s).mp hcond
  refine ⟨pickMax s.people s.creditors, pickMin s.people s.debtors,
    min (getBal s.people (pickMax s.people s.creditors))
      |getBal s.people (pickMin s.people s.debtors)|, rfl, rfl, rfl, ?_⟩
  set c := pickMax s.people s.creditors with hc
  set d := pickMin s.people s.debtors with hd
  set t := min (getBal s.people c) |getBal s.people d| with ht
  have hcmem : c ∈ s.creditors := pickMax_mem _ _ hcne
  have hdmem : d ∈ s.debtors := pickMin_mem _ _ hdne
  have hgbc : SETTLEMENT_TOLERANCE < getBal s.people c :=
    lt_of_lt_of_le hmax (listMax_le_pickMax _ _ hcne)
  have hgbd : getBal s.people d < 0 := hdneg d hdmem
  have hcd : c ≠ d := fun e => hdisj d hdmem (e ▸ hcmem)
  have hccents : IsCents (getBal s.people c) := getBal_cents hcents c
  have hdcents : IsCents (getBal s.people d) := getBal_cents hcents d
  have htcents : IsCents t := isCents_min hccents (isCents_abs hdcents)
  have habs : |getBal s.people d| = -getBal s.people d := abs_of_neg hgbd
  have hdlow : getBal s.people d ≤ -(1 / 100) := isCents_le_neg_cent hdcents hgbd
  have ht1 : 1 / 100 ≤ t := by
    apply le_min
    · rw [tolerance_value] at hgbc
      exact hgbc.le
    · rw [habs]
      linarith
  have hstep : settleStep s
      = (⟨d, c, t⟩,
         ⟨updateBal (updateBal s.people c (getBal s.people c - t)) d
            (getBal s.people d + t),
          if |getBal s.people c - t| ≤ SETTLEMENT_TOLERANCE then
            s.creditors.filter (fun n => !(n == c))
          else s.creditors,
          if |getBal s.people d + t| ≤ SETTLEMENT_TOLERANCE then
            s.debtors.filter (fun n => !(n == d))
          else s.debtors⟩) := by
    unfold settleStep
    dsimp only
    rw [← ht]
    rw [round2_of_isCents htcents,
      round2_of_isCents (isCents_sub hccents htcents),
      round2_of_isCents (isCents_add hdcents htcents)]
  exact ⟨hstep, hcmem, hdmem, hcd, hgbc, hgbd, htcents, ht1,
    min_le_left _ _, by rw [ht, ← habs]; exact min_le_right _ _⟩

theorem updateBal_names (ppl : List Person) (n : String) (v : ℚ) :
    (updateBal ppl n v).map Person.name = ppl.map Person.name := by
  unfold updateBal
  rw [List.map_map]
  apply List.map_congr_left
  intro p _
  by_cases hp : p.name = n
  · simp [hp]
  · simp [hp]

/-! ## Termination of the settlement loop (claim C9) -/

theorem settleLoop_isSome :
    ∀ (fuel : ℕ) (s : SettleState),
      (∀ n ∈ s.creditors, 0 < getBal s.people n) →
      (∀ n ∈ s.debtors, getBal s.people n < 0) →
      s.creditors.Nodup →
      (∀ n ∈ s.debtors, n ∉ s.creditors) →
      (∀ p ∈ s.people, IsCents p.balance) →
      100 * sumBalOver s.people s.creditors < (fuel : ℚ) →
      (settleLoop fuel s).isSome := by
  intro fuel
  induction fuel with
  | zero =>
    intro s hcpos _ _ _ _ hfuel
    exfalso
    have h0 : (0 : ℚ) ≤ sumBalOver s.people s.creditors :=
      sumBalOver_nonneg _ _ hcpos
    rw [Nat.cast_zero] at hfuel
    linarith
  | succ f ih =>
    intro s hcpos hdneg hnodup hdisj hcents hfuel
    unfold settleLoop
    by_cases hcond : settleCond s = true
    · rw [if_pos hcond]
      obtain ⟨c, d, t, hc, hd, ht, hstep, hcmem, hdmem, hcd, hgbc, hgbd,
        htcents, ht1, htc, htd⟩ := settleStep_spec s hcond hcents hdneg hdisj
      have hdnotc : d ∉ s.creditors := hdisj d hdmem
      have hpres_c : s.people.any (fun p => p.name == c) = true := by
        apply any_of_getBal_ne_zero
        intro h0
        rw [h0] at hgbc
        exact absurd hgbc (not_lt.mpr tolerance_pos.le)
      have hpres_d : s.people.any (fun p => p.name == d) = true := by
        apply any_of_getBal_ne_zero
        intro h0
        rw [h0] at hgbd
        exact lt_irrefl 0 hgbd
      set P2 := updateBal (updateBal s.people c (getBal s.people c - t)) d
        (getBal s.people d + t) with hP2
      set C2 := (if |getBal s.people c - t| ≤ SETTLEMENT_TOLERANCE then
          s.creditors.filter (fun n => !(n == c))
        else s.creditors) with hC2
      set D2 := (if |getBal s.people d + t| ≤ SETTLEMENT_TOLERANCE then
          s.debtors.filter (fun n => !(n == d))
        else s.debtors) with hD2
      have hP2_other : ∀ m, m ≠ c → m ≠ d → getBal P2 m = getBal s.people m := by
        intro m hm1 hm2
        rw [hP2, getBal_update_other _ _ _ _ hm2, getBal_update_other _ _ _ _ hm1]
      have hP2_c : getBal P2 c = getBal s.people c - t := by
        rw [hP2, getBal_update_other _ _ _ _ hcd,
          getBal_update_self _ _ _ hpres_c]
      have hP2_d : getBal P2 d = getBal s.people d + t := by
        rw [hP2]
        apply getBal_update_self
        rw [any_name_congr d (updateBal_names s.people c _)]
        exact hpres_d
      have hCsub : ∀ n ∈ C2, n ∈ s.creditors := by
        intro n hn
        rw [hC2] at hn
        split at hn
        · exact List.mem_of_mem_filter hn
        · exact hn
      have hDsub : ∀ n ∈ D2, n ∈ s.debtors := by
        intro n hn
        rw [hD2] at hn
        split at hn
        · exact List.mem_of_mem_filter hn
        · exact hn
      have hcpos2 : ∀ n ∈ C2, 0 < getBal P2 n := by
        intro n hn
        have hmem := hCsub n hn
        have hnd : n ≠ d := fun e => hdnotc (e ▸ hmem)
        by_cases hnc : n = c
        · subst hnc
          rw [hP2_c]
          rw [hC2] at hn
          by_cases hrem : |getBal s.people n - t| ≤ SETTLEMENT_TOLERANCE
          · rw [if_pos hrem] at hn
            rcases List.mem_filter.mp hn with ⟨_, hne⟩
            simp at hne
          · have habs2 : 0 ≤ getBal s.people n - t := by linarith
            have := not_le.mp hrem
            rw [abs_of_nonneg habs2] at this
            linarith [tolerance_pos]
        · rw [hP2_other n hnc hnd]
          exact hcpos n hmem
      have hdneg2 : ∀ n ∈ D2, getBal P2 n < 0 := by
        intro n hn
        have hmem := hDsub n hn
        have hnc : n ≠ c := fun e => hdisj n hmem (e ▸ hcmem)
        by_cases hnd : n = d
        · subst hnd
          rw [hP2_d]
          rw [hD2] at hn
          by_cases hrem : |getBal s.people n + t| ≤ SETTLEMENT_TOLERANCE
          · rw [if_pos hrem] at hn
            rcases List.mem_filter.mp hn with ⟨_, hne⟩
            simp at hne
          · have habs2 : getBal s.people n + t ≤ 0 := by linarith
            have := not_le.mp hrem
            rw [abs_of_nonpos habs2] at this
            linarith [tolerance_pos]
        · rw [hP2_other n hnc hnd]
          exact hdneg n hmem
      have hnodup2 : C2.Nodup := by
        rw [hC2]
        split
        · exact hnodup.filter _
        · exact hnodup
      have hdisj2 : ∀ n ∈ D2, n ∉ C2 := by
        intro n hn hn2
        exact hdisj n (hDsub n hn) (hCsub n hn2)
      have hcents2 : ∀ p ∈ P2, IsCents p.balance := by
        rw [hP2]
        apply updateBal_cents
        · apply updateBal_cents hcents
          exact isCents_sub (getBal_cents hcents c) htcents
        · exact isCents_add (getBal_cents hcents d) htcents
      have hS1 : sumBalOver P2 s.creditors
          = sumBalOver s.people s.creditors - t := by
        rw [hP2, sumBalOver_update_not_mem _ _ _ _ hdnotc,
          sumBalOver_update_mem _ _ _ _ hnodup hcmem hpres_c]
        ring
      have hfuel2 : 100 * sumBalOver P2 C2 < (f : ℚ) := by
        have hcast : ((f + 1 : ℕ) : ℚ) = (f : ℚ) + 1 := by push_cast; ring
        rw [hcast] at hfuel
        rw [hC2]
        by_cases hrem : |getBal s.people c - t| ≤ SETTLEMENT_TOLERANCE
        · rw [if_pos hrem]
          have hgbc2 : 2 / 100 ≤ getBal s.people c := by
            apply isCents_two_cents_le (getBal_cents hcents c)
            rw [tolerance_value] at hgbc
            exact hgbc
          rw [sumBalOver_filter_ne P2 s.creditors c hnodup hcmem, hS1, hP2_c]
          linarith
        · rw [if_neg hrem, hS1]
          linarith
      have hrec := ih ⟨P2, C2, D2⟩ hcpos2 hdneg2 hnodup2 hdisj2 hcents2 hfuel2
      obtain ⟨r, hr⟩ := Option.isSome_iff_exists.mp hrec
      have hs2 : (settleStep s).2 = ⟨P2, C2, D2⟩ := by rw [hstep]
      dsimp only
      rw [hs2, hr]
      rfl
    · rw [if_neg hcond]
      rfl

/-! ## Initial settlement state facts -/

theorem getBal_of_mem {ppl : List Person} (hnd : (ppl.map Person.name).Nodup)
    {p : Person} (hp : p ∈ ppl) : getBal ppl p.name = p.balance := by
  induction ppl with
  | nil => cases hp
  | cons q rest ih =>
    rw [List.map_cons] at hnd
    rw [getBal_cons]
    rcases List.mem_cons.mp hp with rfl | hp2
    · rw [if_pos (by simp)]
    · have hq : ¬((q.name == p.name) = true) := by
        intro e
        have e2 : q.name = p.name := by simpa using e
        have : p.name ∈ rest.map Person.name := List.mem_map_of_mem _ hp2
        exact (List.nodup_cons.mp hnd).1 (e2 ▸ this)
      rw [if_neg hq]
      exact ih (List.nodup_cons.mp hnd).2 hp2

theorem init_facts (L : Ledger) (hnd : (L.people.map Person.name).Nodup) :
    (∀ n ∈ L.initSettleState.creditors, 0 < getBal L.people n)
    ∧ (∀ n ∈ L.initSettleState.debtors, getBal L.people n < 0)
    ∧ L.initSettleState.creditors.Nodup
    ∧ (∀ n ∈ L.initSettleState.debtors, n ∉ L.initSettleState.creditors)
    ∧ sumBalOver L.people L.initSettleState.creditors = posTotal L := by
  refine ⟨?_, ?_, ?_, ?_, ?_⟩
  · intro n hn
    rcases List.mem_map.mp hn with ⟨p, hpf, rfl⟩
    rcases List.mem_filter.mp hpf with ⟨hpm, hpb⟩
    rw [getBal_of_mem hnd hpm]
    exact of_decide_eq_true hpb
  · intro n hn
    rcases List.mem_map.mp hn with ⟨p, hpf, rfl⟩
    rcases List.mem_filter.mp hpf with ⟨hpm, hpb⟩
    rw [getBal_of_mem hnd hpm]
    exact of_decide_eq_true hpb
  · exact hnd.sublist ((List.filter_sublist _).map Person.name)
  · intro n hn hn2
    rcases List.mem_map.mp hn with ⟨p, hpf, hpn⟩
    rcases List.mem_filter.mp hpf with ⟨hpm, hpb⟩
    rcases List.mem_map.mp hn2 with ⟨q, hqf, hqn⟩
    rcases List.mem_filter.mp hqf with ⟨hqm, hqb⟩
    have hpneg : p.balance < 0 := of_decide_eq_true hpb
    have hqpos : 0 < q.balance := of_decide_eq_true hqb
    have e1 : getBal L.people p.name = p.balance := getBal_of_mem hnd hpm
    have e2 : getBal L.people q.name = q.balance := getBal_of_mem hnd hqm
    rw [hpn] at e1
    rw [hqn] at e2
    rw [e1] at e2
    linarith
  · unfold sumBalOver posTotal Ledger.initSettleState
    rw [List.map_map]
    congr 1
    apply List.map_congr_left
    intro p hp
    rcases List.mem_filter.mp hp with ⟨hpm, _⟩
    exact getBal_of_mem hnd hpm

/-! ## Claim C9 -/

/-- C9: the greedy settlement while-loop terminates whenever every balance is
an exact multiple of 0.01 (as `recompute_balances` produces, it rounds to two
decimals), within a number of iterations bounded by 100 times the total
positive balance — a function of the people count and balance magnitudes. -/
theorem settle_terminates (L : Ledger) (fuel : ℕ)
    (hnd : (L.people.map Person.name).Nodup)
    (hcents : ∀ p ∈ L.people, IsCents p.balance)
    (hfuel : 100 * posTotal L < (fuel : ℚ)) :
    (L.settle fuel).isSome := by
  obtain ⟨hcpos, hdneg, hnodup, hdisj, hsum⟩ := init_facts L hnd
  have hrec := settleLoop_isSome fuel L.initSettleState hcpos hdneg hnodup
    hdisj hcents (by
      show 100 * sumBalOver L.people L.initSettleState.creditors < (fuel : ℚ)
      rw [hsum]
      exact hfuel)
  obtain ⟨r, hr⟩ := Option.isSome_iff_exists.mp hrec
  unfold Ledger.settle
  rw [hr]
  rfl

/-! ## Transaction-sum accounting for the settlement loop (claim C3) -/

theorem txnSum_cons (x : Txn) (l : List Txn) :
    txnSum (x :: l) = x.amount + txnSum l := by
  unfold txnSum
  rw [List.map_cons, List.sum_cons]

theorem settleLoop_accounting (C0 : List String) (hnd0 : C0.Nodup) :
    ∀ (fuel : ℕ) (s : SettleState) (ts : List Txn) (sf : SettleState),
      (∀ n ∈ s.creditors, n ∈ C0) →
      (∀ n ∈ s.debtors, n ∉ C0) →
      (∀ n ∈ s.debtors, getBal s.people n < 0) →
      (∀ n ∈ s.debtors, n ∉ s.creditors) →
      (∀ p ∈ s.people, IsCents p.balance) →
      settleLoop fuel s = some (ts, sf) →
      txnSum ts + sumBalOver sf.people C0 = sumBalOver s.people C0 := by
  intro fuel
  induction fuel with
  | zero =>
    intro s ts sf _ _ _ _ _ h
    unfold settleLoop at h
    split at h
    · cases h
    · cases h
      unfold txnSum
      simp
  | succ f ih =>
    intro s ts sf hcC0 hdC0 hdneg hdisj hcents h
    unfold settleLoop at h
    by_cases hcond : settleCond s = true
    · rw [if_pos hcond] at h
      obtain ⟨c, d, t, hc, hd, ht, hstep, hcmem, hdmem, hcd, hgbc, hgbd,
        htcents, ht1, htc, htd⟩ := settleStep_spec s hcond hcents hdneg hdisj
      have hdnotc : d ∉ s.creditors := hdisj d hdmem
      have hpres_c : s.people.any (fun p => p.name == c) = true := by
        apply any_of_getBal_ne_zero
        intro h0
        rw [h0] at hgbc
        exact absurd hgbc (not_lt.mpr tolerance_pos.le)
      have hpres_d : s.people.any (fun p => p.name == d) = true := by
        apply any_of_getBal_ne_zero
        intro h0
        rw [h0] at hgbd
        exact lt_irrefl 0 hgbd
      set P2 := updateBal (updateBal s.people c (getBal s.people c - t)) d
        (getBal s.people d + t) with hP2
      set C2 := (if |getBal s.people c - t| ≤ SETTLEMENT_TOLERANCE then
          s.creditors.filter (fun n => !(n == c))
        else s.creditors) with hC2
      set D2 := (if |getBal s.people d + t| ≤ SETTLEMENT_TOLERANCE then
          s.debtors.filter (fun n => !(n == d))
        else s.debtors) with hD2
      have hP2_other : ∀ m, m ≠ c → m ≠ d → getBal P2 m = getBal s.people m := by
        intro m hm1 hm2
        rw [hP2, getBal_update_other _ _ _ _ hm2, getBal_update_other _ _ _ _ hm1]
      have hP2_c : getBal P2 c = getBal s.people c - t := by
        rw [hP2, getBal_update_other _ _ _ _ hcd,
          getBal_update_self _ _ _ hpres_c]
      have hP2_d : getBal P2 d = getBal s.people d + t := by
        rw [hP2]
        apply getBal_update_self
        rw [any_name_congr d (updateBal_names s.people c _)]
        exact hpres_d
      have hCsub : ∀ n ∈ C2, n ∈ s.creditors := by
        intro n hn
        rw [hC2] at hn
        split at hn
        · exact List.mem_of_mem_filter hn
        · exact hn
      have hDsub : ∀ n ∈ D2, n ∈ s.debtors := by
        intro n hn
        rw [hD2] at hn
        split at hn
        · exact List.mem_of_mem_filter hn
        · exact hn
      have hdneg2 : ∀ n ∈ D2, getBal P2 n < 0 := by
        intro n hn
        have hmem := hDsub n hn
        have hnc : n ≠ c := fun e => hdisj n hmem (e ▸ hcmem)
        by_cases hnd : n = d
        · subst hnd
          rw [hP2_d]
          rw [hD2] at hn
          by_cases hrem : |getBal s.people n + t| ≤ SETTLEMENT_TOLERANCE
          · rw [if_pos hrem] at hn
            rcases List.mem_filter.mp hn with ⟨_, hne⟩
            simp at hne
          · have habs2 : getBal s.people n + t ≤ 0 := by linarith
            have := not_le.mp hrem
            rw [abs_of_nonpos habs2] at this
            linarith [tolerance_pos]
        · rw [hP2_other n hnc hnd]
          exact hdneg n hmem
      have hcents2 : ∀ p ∈ P2, IsCents p.balance := by
        rw [hP2]
        apply updateBal_cents
        · apply updateBal_cents hcents
          exact isCents_sub (getBal_cents hcents c) htcents
        · exact isCents_add (getBal_cents hcents d) htcents
      have hdisj2 : ∀ n ∈ D2, n ∉ C2 := by
        intro n hn hn2
        exact hdisj n (hDsub n hn) (hCsub n hn2)
      have hcC02 : ∀ n ∈ C2, n ∈ C0 := fun n hn => hcC0 n (hCsub n hn)
      have hdC02 : ∀ n ∈ D2, n ∉ C0 := fun n hn => hdC0 n (hDsub n hn)
      have hSC0 : sumBalOver P2 C0 = sumBalOver s.people C0 - t := by
        rw [hP2, sumBalOver_update_not_mem _ _ _ _ (hdC0 d hdmem),
          sumBalOver_update_mem _ _ _ _ hnd0 (hcC0 c hcmem) hpres_c]
        ring
      have hs2 : (settleStep s).2 = ⟨P2, C2, D2⟩ := by rw [hstep]
      have hs1 : (settleStep s).1 = ⟨d, c, t⟩ := by rw [hstep]
      dsimp only at h
      rw [hs1, hs2] at h
      rcases Option.map_eq_some'.mp h with ⟨r, hr, hre⟩
      cases hre
      rw [txnSum_cons]
      have hrec := ih ⟨P2, C2, D2⟩ r.1 r.2 hcC02 hdC02 hdneg2 hdisj2 hcents2 hr
      dsimp only at hrec ⊢
      rw [hSC0] at hrec
      linarith [hrec]
    · rw [if_neg hcond] at h
      cases h
      unfold txnSum
      simp

/-! ## Claim C3 (amended) -/

/-- C3 (amended): the transfer amounts emitted by the settlement loop sum to
the pre-settlement total creditor balance minus the balances remaining on the
initial creditors when the loop exits — not to the creditor total itself,
since the loop stops with residual balances when debtors are exhausted or the
largest creditor balance falls within tolerance. -/
theorem settle_txn_sum (L : Ledger) (fuel : ℕ) (ts : List Txn)
    (sf : SettleState) (hnd : (L.people.map Person.name).Nodup)
    (hcents : ∀ p ∈ L.people, IsCents p.balance)
    (h : settleLoop fuel L.initSettleState = some (ts, sf)) :
    txnSum ts = posTotal L - sumBalOver sf.people L.creditorNames := by
  obtain ⟨hcpos, hdneg, hnodup, hdisj, hsum⟩ := init_facts L hnd
  have hacc := settleLoop_accounting L.initSettleState.creditors hnodup fuel
    L.initSettleState ts sf (fun n hn => hn) hdisj hdneg hdisj hcents h
  have hpeq : sumBalOver L.initSettleState.people L.initSettleState.creditors
      = posTotal L := hsum
  rw [hpeq] at hacc
  have hCN : L.creditorNames = L.initSettleState.creditors := rfl
  rw [hCN]
  linarith [hacc]

/-! ## Effects of the ledger mutators (claims C1, C7) -/

theorem add_person_ok {L : Ledger} {n : String} {b pa ow : ℚ} {L' : Ledger}
    (h : L.add_person n b pa ow = .ok L') :
    L'.expenses = L.expenses
    ∧ (L' = L ∨ (L'.people = L.people ++ [⟨cleanName n, b, pa, ow⟩]
        ∧ L.hasPerson (cleanName n) = false)) := by
  unfold Ledger.add_person at h
  dsimp only at h
  split_ifs at h with h1 h2 h3 h4 h5 h6 <;> cases h
  · exact ⟨rfl, Or.inl rfl⟩
  · exact ⟨rfl, Or.inr ⟨rfl, Bool.eq_false_iff.mpr h5⟩⟩

theorem ensurePerson_ok {ac : Bool} {L : Ledger} {r : String} {L' : Ledger}
    (h : L.ensurePerson ac r = .ok L') :
    L'.expenses = L.expenses
    ∧ (L' = L ∨ ∃ nm, L'.people = L.people ++ [⟨nm, 0, 0, 0⟩]
        ∧ L.hasPerson nm = false) := by
  unfold Ledger.ensurePerson at h
  split at h
  · cases h
    exact ⟨rfl, Or.inl rfl⟩
  · split at h
    · rcases add_person_ok h with ⟨he, hp⟩
      refine ⟨he, ?_⟩
      rcases hp with rfl | ⟨hp2, hfresh⟩
      · exact Or.inl rfl
      · exact Or.inr ⟨cleanName r, hp2, hfresh⟩
    · cases h

theorem hasPerson_false_not_mem {L : Ledger} {nm : String}
    (h : L.hasPerson nm = false) : nm ∉ L.people.map Person.name := by
  intro hmem
  rcases List.mem_map.mp hmem with ⟨p, hp, rfl⟩
  unfold Ledger.hasPerson at h
  have := List.any_eq_false.mp h p hp
  simp at this

/-- The three invariant-relevant effects of one `ensurePerson` call. -/
theorem ensure_props {ac : Bool} {L : Ledger} {r : String} {L' : Ledger}
    (h : L.ensurePerson ac r = .ok L') :
    L'.expenses = L.expenses
    ∧ ((L.people.map Person.name).Nodup → (L'.people.map Person.name).Nodup)
    ∧ (L'.people.map Person.paid).sum = (L.people.map Person.paid).sum := by
  rcases ensurePerson_ok h with ⟨he, hp⟩
  refine ⟨he, ?_, ?_⟩
  · intro hnd
    rcases hp with rfl | ⟨nm, hp2, hfresh⟩
    · exact hnd
    · rw [hp2, List.map_append]
      rw [List.nodup_append]
      exact ⟨hnd, List.nodup_singleton _,
        by
          intro a ha hb
          simp only [List.map_cons, List.map_nil, List.mem_cons,
            List.not_mem_nil, or_false] at hb
          exact hasPerson_false_not_mem hfresh (hb ▸ ha)⟩
  · rcases hp with rfl | ⟨nm, hp2, _⟩
    · rfl
    · rw [hp2, List.map_append, List.sum_append]
      simp

theorem ensure_fold_props {ac : Bool} (rs : List String) :
    ∀ {L L' : Ledger}, rs.foldlM (Ledger.ensurePerson ac) L = .ok L' →
      L'.expenses = L.expenses
      ∧ ((L.people.map Person.name).Nodup → (L'.people.map Person.name).Nodup)
      ∧ (L'.people.map Person.paid).sum = (L.people.map Person.paid).sum := by
  induction rs with
  | nil =>
    intro L L' h
    simp only [List.foldlM_nil] at h
    cases h
    exact ⟨rfl, id, rfl⟩
  | cons r rest ih =>
    intro L L' h
    rw [List.foldlM_cons] at h
    cases h1 : L.ensurePerson ac r with
    | error f => rw [h1] at h; cases h
    | ok L1 =>
      rw [h1] at h
      rcases ensure_props h1 with ⟨he1, hn1, hp1⟩
      rcases ih h with ⟨he2, hn2, hp2⟩
      exact ⟨he2.trans he1, fun hnd => hn2 (hn1 hnd), hp2.trans hp1⟩

theorem cleanParticipantsLoop_length :
    ∀ (l : List String) (cs : List String),
      cleanParticipantsLoop l = .ok cs → cs.length = l.length := by
  intro l
  induction l with
  | nil =>
    intro cs h
    cases h
    rfl
  | cons p rest ih =>
    intro cs h
    unfold cleanParticipantsLoop at h
    dsimp only at h
    cases h2 : cleanParticipantsLoop rest with
    | error f =>
      rw [h2] at h
      split_ifs at h <;> cases h
    | ok cs' =>
      rw [h2] at h
      split_ifs at h <;> cases h
      simp [ih cs' h2]

/-- A successfully built expense has a nonempty, duplicate-free participant
list. -/
theorem make_ok {payer : String} {amount : ℚ} {participants : List String}
    {split : String} {kwargs : SplitKwargs} {e : Expense}
    (h : Expense.make payer amount participants split kwargs = .ok e) :
    e.participants ≠ [] ∧ e.participants.Nodup := by
  unfold Expense.make at h
  by_cases c1 : (payer == "") = true
  · rw [if_pos c1] at h; cases h
  · rw [if_neg c1] at h
    by_cases c2 : (!is_valid_money amount) = true
    · rw [if_pos c2] at h; cases h
    · rw [if_neg c2] at h
      by_cases c3 : amount ≤ 0
      · rw [if_pos c3] at h; cases h
      · rw [if_neg c3] at h
        by_cases c4 : MAX_AMOUNT < amount
        · rw [if_pos c4] at h; cases h
        · rw [if_neg c4] at h
          by_cases c5 : participants.isEmpty = true
          · rw [if_pos c5] at h; cases h
          · rw [if_neg c5] at h
            by_cases c6 : MAX_PARTICIPANTS < participants.length
            · rw [if_pos c6] at h; cases h
            · rw [if_neg c6] at h
              cases h2 : cleanParticipantsLoop participants with
              | error f => rw [h2] at h; dsimp only at h; cases h
              | ok clean =>
                rw [h2] at h
                dsimp only at h
                have hlen : clean.length = participants.length :=
                  cleanParticipantsLoop_length participants clean h2
                have hce : clean ≠ [] := by
                  intro hnil
                  rw [hnil] at hlen
                  have hpe : participants = [] := List.length_eq_zero.mp hlen.symm
                  rw [hpe] at c5
                  simp at c5
                by_cases hnodup : clean.Nodup
                · rw [if_pos hnodup] at h
                  split at h <;> cases h <;> exact ⟨hce, hnodup⟩
                · rw [if_neg hnodup] at h
                  cases h

/-- The split-kind dispatch of a successfully built weights expense: the
weights dict is stored verbatim, with no validation. -/
theorem make_weights {payer : String} {amount : ℚ}
    {participants : List String} {kwargs : SplitKwargs} {e : Expense}
    (h : Expense.make payer amount participants "weights" kwargs = .ok e) :
    e.split = .weights (kwargs.weights.getD []) := by
  unfold Expense.make at h
  by_cases c1 : (payer == "") = true
  · rw [if_pos c1] at h; cases h
  · rw [if_neg c1] at h
    by_cases c2 : (!is_valid_money amount) = true
    · rw [if_pos c2] at h; cases h
    · rw [if_neg c2] at h
      by_cases c3 : amount ≤ 0
      · rw [if_pos c3] at h; cases h
      · rw [if_neg c3] at h
        by_cases c4 : MAX_AMOUNT < amount
        · rw [if_pos c4] at h; cases h
        · rw [if_neg c4] at h
          by_cases c5 : participants.isEmpty = true
          · rw [if_pos c5] at h; cases h
          · rw [if_neg c5] at h
            by_cases c6 : MAX_PARTICIPANTS < participants.length
            · rw [if_pos c6] at h; cases h
            · rw [if_neg c6] at h
              cases h2 : cleanParticipantsLoop participants with
              | error f => rw [h2] at h; dsimp only at h; cases h
              | ok clean =>
                rw [h2] at h
                dsimp only at h
                by_cases hnodup : clean.Nodup
                · rw [if_pos hnodup] at h
                  cases h
                  rfl
                · rw [if_neg hnodup] at h
                  cases h

theorem map_update_no_match (upd : Person → Person) (nm : String) :
    ∀ ppl : List Person, (∀ p ∈ ppl, p.name ≠ nm) →
      ppl.map (fun p => if p.name == nm then upd p else p) = ppl := by
  intro ppl h
  have he : ∀ p ∈ ppl, (if p.name == nm then upd p else p) = p := by
    intro p hp
    rw [if_neg]
    intro e
    exact h p hp (by simpa using e)
  calc ppl.map (fun p => if p.name == nm then upd p else p)
      = ppl.map id := List.map_congr_left he
    _ = ppl := List.map_id ppl

theorem sum_map_update_field (proj : Person → ℚ) (upd : Person → Person)
    (nm : String) (amt : ℚ) (hproj : ∀ p, proj (upd p) = proj p + amt) :
    ∀ ppl : List Person, (ppl.map Person.name).Nodup →
      ppl.any (fun p => p.name == nm) = true →
      ((ppl.map (fun p => if p.name == nm then upd p else p)).map proj).sum
        = (ppl.map proj).sum + amt := by
  intro ppl
  induction ppl with
  | nil =>
    intro _ hpres
    simp at hpres
  | cons q rest ih =>
    intro hnd hpres
    rw [List.map_cons] at hnd
    simp only [List.map_cons, List.sum_cons]
    by_cases hq : (q.name == nm) = true
    · rw [if_pos hq]
      have hnm_eq : q.name = nm := by simpa using hq
      have hrest : rest.map (fun p => if p.name == nm then upd p else p)
          = rest := by
        apply map_update_no_match
        intro p hp e
        apply (List.nodup_cons.mp hnd).1
        have hmem : p.name ∈ rest.map Person.name :=
          List.mem_map_of_mem Person.name hp
        rw [e] at hmem
        rw [hnm_eq]
        exact hmem
      rw [hrest, hproj q]
      ring
    · rw [if_neg hq]
      have hpres2 : rest.any (fun p => p.name == nm) = true := by
        rcases List.any_eq_true.mp hpres with ⟨p, hp, hpn⟩
        rcases List.mem_cons.mp hp with rfl | hp2
        · exact absurd hpn hq
        · exact List.any_eq_true.mpr ⟨p, hp2, hpn⟩
      rw [ih (List.nodup_cons.mp hnd).2 hpres2]
      ring

theorem map_update_names (upd : Person → Person) (nm : String)
    (hname : ∀ p, (upd p).name = p.name) (ppl : List Person) :
    ((ppl.map (fun p => if p.name == nm then upd p else p)).map Person.name)
      = ppl.map Person.name := by
  rw [List.map_map]
  apply List.map_congr_left
  intro p _
  by_cases hp : (p.name == nm) = true
  · simp only [Function.comp, if_pos hp]
    exact hname p
  · simp only [Function.comp, if_neg hp]

/-- Structural decomposition of a successful `add_expense`: some people may
have been auto-created (with zero fields), then the expense built by
`Expense.make` is appended and the payer's paid total incremented. -/
theorem add_expense_ok {ac : Bool} {L : Ledger} {payer : String} {amount : ℚ}
    {participants : List String} {split : String} {kwargs : SplitKwargs}
    {L' : Ledger}
    (h : L.add_expense ac payer amount participants split kwargs = .ok L') :
    ∃ (L2 : Ledger) (e : Expense),
      L2.expenses = L.expenses
      ∧ ((L.people.map Person.name).Nodup → (L2.people.map Person.name).Nodup)
      ∧ (L2.people.map Person.paid).sum = (L.people.map Person.paid).sum
      ∧ Expense.make (cleanName payer) amount
          ((participants.filter (fun p => !(strTrim p == ""))).map cleanName)
          split kwargs = .ok e
      ∧ L'.expenses = L2.expenses ++ [e]
      ∧ L2.people.any (fun p => p.name == e.payer) = true
      ∧ L'.people = L2.people.map (fun p =>
          if p.name == e.payer then { p with paid := p.paid + e.amount }
          else p) := by
  unfold Ledger.add_expense at h
  dsimp only at h
  by_cases c1 : (strTrim payer == "") = true
  · rw [if_pos c1] at h; cases h
  · rw [if_neg c1] at h
    by_cases c2 : participants.isEmpty = true
    · rw [if_pos c2] at h; cases h
    · rw [if_neg c2] at h
      by_cases c3 : amount ≤ 0
      · rw [if_pos c3] at h; cases h
      · rw [if_neg c3] at h
        by_cases c4 : MAX_AMOUNT < amount
        · rw [if_pos c4] at h; cases h
        · rw [if_neg c4] at h
          by_cases c5 : ((participants.filter
              (fun p => !(strTrim p == ""))).map cleanName).isEmpty = true
          · rw [if_pos c5] at h; cases h
          · rw [if_neg c5] at h
            cases hE1 : L.ensurePerson ac payer with
            | error f => rw [hE1] at h; cases h
            | ok L1 =>
              rw [hE1] at h
              dsimp only at h
              cases hE2 : ((participants.filter
                  (fun p => !(strTrim p == ""))).map cleanName).foldlM
                  (Ledger.ensurePerson ac) L1 with
              | error f => rw [hE2] at h; cases h
              | ok L2 =>
                rw [hE2] at h
                dsimp only at h
                cases hE3 : Expense.make (cleanName payer) amount
                    ((participants.filter
                      (fun p => !(strTrim p == ""))).map cleanName)
                    split kwargs with
                | error f => rw [hE3] at h; cases h
                | ok e =>
                  rw [hE3] at h
                  dsimp only at h
                  rcases ensure_props hE1 with ⟨he1, hn1, hp1⟩
                  rcases ensure_fold_props _ hE2 with ⟨he2, hn2, hp2⟩
                  split at h
                  · next hpres =>
                    cases h
                    refine ⟨L2, e, he2.trans he1,
                      fun hnd => hn2 (hn1 hnd), hp2.trans hp1, ?_, rfl,
                      hpres, rfl⟩
                    rfl
                  · cases h

/-! ## Invariants of ledgers built through the public mutators (claim C1) -/

theorem built_invariants {L : Ledger} (h : Built L) :
    (L.people.map Person.name).Nodup
    ∧ (L.people.map Person.paid).sum = (L.expenses.map Expense.amount).sum
    ∧ ∀ e ∈ L.expenses, e.participants ≠ [] ∧ e.participants.Nodup := by
  induction h with
  | empty => simp
  | person hB hstep ih =>
    rcases add_person_ok hstep with ⟨he, hp⟩
    rcases hp with rfl | ⟨hp2, hfresh⟩
    · exact ih
    · refine ⟨?_, ?_, ?_⟩
      · rw [hp2, List.map_append, List.nodup_append]
        refine ⟨ih.1, List.nodup_singleton _, ?_⟩
        intro a ha hb
        simp only [List.map_cons, List.map_nil, List.mem_cons,
          List.not_mem_nil, or_false] at hb
        exact hasPerson_false_not_mem hfresh (hb ▸ ha)
      · rw [hp2, List.map_append, List.sum_append, he]
        simpa using ih.2.1
      · rw [he]
        exact ih.2.2
  | expense hB hstep ih =>
    rcases add_expense_ok hstep with
      ⟨L2, e, hL2e, hL2n, hL2p, hmake, hexp, hpres, hppl⟩
    have hnd2 : (L2.people.map Person.name).Nodup := hL2n ih.1
    refine ⟨?_, ?_, ?_⟩
    · rw [hppl]
      rw [map_update_names (fun p => { p with paid := p.paid + e.amount })
        e.payer (fun p => rfl)]
      exact hnd2
    · rw [hppl, hexp, hL2e]
      rw [sum_map_update_field Person.paid
        (fun p => { p with paid := p.paid + e.amount }) e.payer e.amount
        (fun p => rfl) L2.people hnd2 hpres]
      rw [hL2p, List.map_append, List.sum_append]
      simp [ih.2.1]
    · rw [hexp, hL2e]
      intro e' he'
      rcases List.mem_append.mp he' with hold | hnew
      · exact ih.2.2 e' hold
      · have : e' = e := by simpa using hnew
        rw [this]
        exact make_ok hmake

theorem map_const_sum {α : Type} (l : List α) (c : ℚ) :
    (l.map (fun _ => c)).sum = l.length * c := by
  induction l with
  | nil => simp
  | cons x xs ih =>
    simp only [List.map_cons, List.sum_cons, List.length_cons, ih]
    push_cast
    ring

theorem sum_map_mul_const (l : List String) (c : ℚ) (f : String → ℚ) :
    (l.map (fun p => c * f p)).sum = c * (l.map f).sum := by
  induction l with
  | nil => simp
  | cons x xs ih =>
    simp only [List.map_cons, List.sum_cons, ih]
    ring

theorem equalShares_values_sum {A : ℚ} {ps : List String}
    {sh : List (String × ℚ)} (hnd : ps.Nodup)
    (h : SplitsOld.equalShares A ps = .ok sh) : valuesSum sh = A := by
  unfold SplitsOld.equalShares at h
  split at h
  · cases h
  · next hlen =>
    cases h
    rw [sharesOf_eq_map _ _ hnd, valuesSum_map, map_const_sum]
    have hlen2 : ps.length ≠ 0 := by simpa using hlen
    have hc : (ps.length : ℚ) ≠ 0 := by exact_mod_cast hlen2
    field_simp

theorem weightsShares_values_sum {A : ℚ} {ps : List String}
    {w sh : List (String × ℚ)} (hnd : ps.Nodup)
    (h : SplitsOld.weightsShares A ps w = .ok sh) : valuesSum sh = A := by
  unfold SplitsOld.weightsShares at h
  split at h
  · cases h
  · dsimp only at h
    cases hf : (cleanDict w).find? (fun kv => decide (kv.2 < 0)) with
    | some kv =>
      rw [hf] at h
      dsimp only at h
      cases h
    | none =>
      rw [hf] at h
      dsimp only at h
      split at h
      · split at h
        · cases h
        · next htz =>
          cases h
          rw [sharesOf_eq_map _ _ hnd, valuesSum_map]
          have htotal_ne : sumOverKeys (cleanDict w) ps ≠ 0 := by
            simpa using htz
          have hcong : ps.map (fun p =>
              A * dictGet (cleanDict w) p / sumOverKeys (cleanDict w) ps)
              = ps.map (fun p =>
              (A / sumOverKeys (cleanDict w) ps) * dictGet (cleanDict w) p) := by
            apply List.map_congr_left
            intro p _
            ring
          rw [hcong, sum_map_mul_const]
          have hso : (ps.map (dictGet (cleanDict w))).sum
              = sumOverKeys (cleanDict w) ps := rfl
          rw [hso]
          field_simp
      · cases h

theorem names_of_baseView {ppl1 ppl2 : List Person}
    (h : ppl1.map baseView = ppl2.map baseView) :
    ppl1.map Person.name = ppl2.map Person.name := by
  have h2 := congrArg (List.map Prod.fst) h
  rw [List.map_map, List.map_map] at h2
  exact h2

theorem addShare_owe_sum {ppl ppl' : List Person} {n : String} {s : ℚ}
    (hnd : (ppl.map Person.name).Nodup) (h : addShare ppl n s = .ok ppl') :
    (ppl'.map Person.owe).sum = (ppl.map Person.owe).sum + s := by
  unfold addShare at h
  split at h
  · next hpres =>
    cases h
    exact sum_map_update_field Person.owe
      (fun p => { p with owe := p.owe + s }) n s (fun p => rfl) ppl hnd hpres
  · cases h

theorem addShares_owe_sum (sh : List (String × ℚ)) :
    ∀ {ppl ppl' : List Person}, (ppl.map Person.name).Nodup →
      addShares ppl sh = .ok ppl' →
      (ppl'.map Person.owe).sum = (ppl.map Person.owe).sum + valuesSum sh := by
  induction sh with
  | nil =>
    intro ppl ppl' _ h
    unfold addShares at h
    simp only [List.foldlM_nil] at h
    cases h
    simp [valuesSum]
  | cons kv rest ih =>
    intro ppl ppl' hnd h
    unfold addShares at h ih
    rw [List.foldlM_cons] at h
    cases h1 : addShare ppl kv.1 kv.2 with
    | error f =>
      rw [h1] at h
      cases h
    | ok a =>
      rw [h1] at h
      have hnames : a.map Person.name = ppl.map Person.name :=
        names_of_baseView (addShare_baseView h1)
      have hnd2 : (a.map Person.name).Nodup := by rw [hnames]; exact hnd
      rw [ih hnd2 h, addShare_owe_sum hnd h1]
      unfold valuesSum
      rw [List.map_cons, List.sum_cons]
      ring

theorem foldExpenses_owe_sum (es : List Expense) :
    ∀ {ppl ppl' : List Person},
      (∀ e ∈ es, e.participants.Nodup) →
      (∀ e ∈ es, exactSumSplit e = true) →
      (ppl.map Person.name).Nodup →
      es.foldlM applyExpense ppl = .ok ppl' →
      (ppl'.map Person.owe).sum
        = (ppl.map Person.owe).sum + (es.map Expense.amount).sum := by
  induction es with
  | nil =>
    intro ppl ppl' _ _ _ h
    simp only [List.foldlM_nil] at h
    cases h
    simp
  | cons e rest ih =>
    intro ppl ppl' hvalid hsplits hnd h
    rw [List.foldlM_cons] at h
    cases h1 : applyExpense ppl e with
    | error f =>
      rw [h1] at h
      cases h
    | ok a =>
      rw [h1] at h
      have hv : e.participants.Nodup := hvalid e (List.mem_cons_self e rest)
      have hs : exactSumSplit e = true := hsplits e (List.mem_cons_self e rest)
      unfold applyExpense at h1
      cases hc : e.computeShares with
      | error f =>
        rw [hc] at h1
        cases h1
      | ok sh =>
        rw [hc] at h1
        have hsum : valuesSum sh = e.amount := by
          unfold Expense.computeShares at hc
          unfold exactSumSplit at hs
          cases hsp : e.split with
          | equal =>
            rw [hsp] at hc
            exact equalShares_values_sum hv hc
          | weights w =>
            rw [hsp] at hc
            exact weightsShares_values_sum hv hc
          | percent pc =>
            rw [hsp] at hs
            cases hs
          | exact ex =>
            rw [hsp] at hs
            cases hs
        have hnames : a.map Person.name = ppl.map Person.name :=
          names_of_baseView (addShares_baseView sh h1)
        have hnd2 : (a.map Person.name).Nodup := by rw [hnames]; exact hnd
        have howe1 := addShares_owe_sum sh hnd h1
        rw [ih (fun x hx => hvalid x (List.mem_cons_of_mem e hx))
            (fun x hx => hsplits x (List.mem_cons_of_mem e hx)) hnd2 h,
          howe1, hsum]
        rw [List.map_cons, List.sum_cons]
        ring

theorem sum_map_add_fun (l : List Person) (f g : Person → ℚ) :
    (l.map (fun p => f p + g p)).sum = (l.map f).sum + (l.map g).sum := by
  induction l with
  | nil => simp
  | cons x xs ih =>
    simp only [List.map_cons, List.sum_cons, ih]
    ring

theorem sum_map_sub (l : List Person) (f g : Person → ℚ) :
    (l.map (fun p => f p - g p)).sum = (l.map f).sum - (l.map g).sum := by
  induction l with
  | nil => simp
  | cons x xs ih =>
    simp only [List.map_cons, List.sum_cons, ih]
    ring

theorem abs_sum_le_sum_abs (l : List ℚ) :
    |l.sum| ≤ (l.map (fun x => |x|)).sum := by
  induction l with
  | nil => simp
  | cons x xs ih =>
    simp only [List.map_cons, List.sum_cons]
    calc |x + xs.sum| ≤ |x| + |xs.sum| := abs_add x xs.sum
      _ ≤ |x| + (xs.map (fun y => |y|)).sum := by linarith

theorem sum_le_length_mul (l : List ℚ) (c : ℚ) (h : ∀ x ∈ l, x ≤ c) :
    l.sum ≤ l.length * c := by
  induction l with
  | nil => simp
  | cons x xs ih =>
    simp only [List.sum_cons, List.length_cons]
    have h1 : x ≤ c := h x (List.mem_cons_self x xs)
    have h2 : xs.sum ≤ xs.length * c :=
      ih (fun y hy => h y (List.mem_cons_of_mem x hy))
    push_cast
    nlinarith

theorem round2_err (x : ℚ) : |round2 x - x| ≤ 1 / 200 := by
  have h1 : round2 x - x = (((round (100 * x) : ℤ) : ℚ) - 100 * x) / 100 := by
    unfold round2
    field_simp
  rw [h1, abs_div]
  have h2 : |(100 : ℚ)| = 100 := by norm_num
  rw [h2]
  have h3 : |100 * x - ((round (100 * x) : ℤ) : ℚ)| ≤ 1 / 2 :=
    abs_sub_round (100 * x)
  rw [abs_sub_comm] at h3
  linarith

theorem resetOwes_names (ppl : List Person) :
    (resetOwes ppl).map Person.name = ppl.map Person.name := by
  unfold resetOwes
  rw [List.map_map]
  rfl

theorem resetOwes_owe_sum (ppl : List Person) :
    ((resetOwes ppl).map Person.owe).sum = 0 := by
  unfold resetOwes
  rw [List.map_map]
  have h : ppl.map (Person.owe ∘ fun p => { p with owe := 0 })
      = ppl.map (fun _ => (0 : ℚ)) := rfl
  rw [h, map_const_sum]
  ring

theorem resetOwes_paid_sum (ppl : List Person) :
    ((resetOwes ppl).map Person.paid).sum = (ppl.map Person.paid).sum := by
  unfold resetOwes
  rw [List.map_map]
  rfl

/-- C1 (amended): over any ledger reachable by `add_person`/`add_expense`
whose stored expenses all use the exact-sum strategies (equal or weighted
splits), a successful `balances()` produces balances whose sum has absolute
value at most `n/200` where `n` is the number of people — the per-person
half-cent rounding bound.  The sum need not lie within the settlement
tolerance 0.01: rounding errors accumulate one half-cent per person. -/
theorem conservation_bound (L L' : Ledger) (hB : Built L)
    (hsplits : ∀ e ∈ L.expenses, exactSumSplit e = true)
    (hb : L.balances = .ok L') :
    |balancesSum L'| ≤ (L'.people.length : ℚ) / 200 := by
  obtain ⟨hnd, hpaid, hvalid⟩ := built_invariants hB
  unfold Ledger.balances at hb
  cases hf : L.expenses.foldlM applyExpense (resetOwes L.people) with
  | error f =>
    rw [hf] at hb
    cases hb
  | ok accum =>
    rw [hf] at hb
    cases hb
    have hreset_nodup : ((resetOwes L.people).map Person.name).Nodup := by
      rw [resetOwes_names]
      exact hnd
    have howe := foldExpenses_owe_sum L.expenses
      (fun e he => (hvalid e he).2) hsplits hreset_nodup hf
    rw [resetOwes_owe_sum] at howe
    have hbase := foldExpenses_baseView L.expenses hf
    have hpaid_acc : (accum.map Person.paid).sum
        = (L.people.map Person.paid).sum := by
      have h2 := congrArg (List.map Prod.snd) hbase
      rw [List.map_map, List.map_map] at h2
      have e1 : accum.map (Prod.snd ∘ baseView) = accum.map Person.paid := rfl
      have e2 : (resetOwes L.people).map (Prod.snd ∘ baseView)
          = (resetOwes L.people).map Person.paid := rfl
      rw [e1, e2] at h2
      rw [h2, resetOwes_paid_sum]
    have hsum0 : (accum.map (fun p => p.paid - p.owe)).sum = 0 := by
      rw [sum_map_sub, hpaid_acc, howe, hpaid]
      ring
    have hform : balancesSum { L with people := accum.map (fun p =>
        { p with balance := round2 (p.paid - p.owe) }) }
        = (accum.map (fun p => round2 (p.paid - p.owe))).sum := by
      unfold balancesSum
      rw [List.map_map]
      rfl
    rw [hform]
    dsimp only
    rw [List.length_map]
    have hkey : accum.map (fun p => round2 (p.paid - p.owe))
        = accum.map (fun p =>
            (round2 (p.paid - p.owe) - (p.paid - p.owe)) + (p.paid - p.owe)) := by
      apply List.map_congr_left
      intro p _
      ring
    have hsplit_sum : (accum.map (fun p => round2 (p.paid - p.owe))).sum
        = (accum.map (fun p =>
            round2 (p.paid - p.owe) - (p.paid - p.owe))).sum
          + (accum.map (fun p => p.paid - p.owe)).sum := by
      rw [hkey]
      exact sum_map_add_fun accum
        (fun p => round2 (p.paid - p.owe) - (p.paid - p.owe))
        (fun p => p.paid - p.owe)
    rw [hsplit_sum, hsum0, add_zero]
    have hbound := abs_sum_le_sum_abs
      (accum.map (fun p => round2 (p.paid - p.owe) - (p.paid - p.owe)))
    rw [List.map_map] at hbound
    have heach : ∀ x ∈ accum.map (fun p =>
        |round2 (p.paid - p.owe) - (p.paid - p.owe)|), x ≤ 1 / 200 := by
      intro x hx
      rcases List.mem_map.mp hx with ⟨p, _, rfl⟩
      exact round2_err (p.paid - p.owe)
    have hlen2 := sum_le_length_mul
      (accum.map (fun p => |round2 (p.paid - p.owe) - (p.paid - p.owe)|))
      (1 / 200) heach
    rw [List.length_map] at hlen2
    have hcomp : accum.map ((fun x => |x|) ∘ fun p =>
        round2 (p.paid - p.owe) - (p.paid - p.owe))
        = accum.map (fun p =>
            |round2 (p.paid - p.owe) - (p.paid - p.owe)|) := rfl
    rw [hcomp] at hbound
    calc |(accum.map (fun p => round2 (p.paid - p.owe)
            - (p.paid - p.owe))).sum|
        ≤ (accum.map (fun p =>
            |round2 (p.paid - p.owe) - (p.paid - p.owe)|)).sum := hbound
      _ ≤ (accum.length : ℚ) * (1 / 200) := hlen2
      _ = (accum.length : ℚ) / 200 := by ring

/-! ## Claim C7 (amended) and the deferred-validation scenario -/

/-- C7 (amended): `add_expense` does not validate strategy parameters.  A
successful call with split kind "weights" appends exactly one expense whose
stored weights dict is the supplied `kwargs.weights` verbatim — malformed or
not — so any validation error in the parameters is raised only later, when
`balances()` invokes the strategy over the stored data. -/
theorem add_expense_defers_strategy_validation {ac : Bool} {L : Ledger}
    {payer : String} {amount : ℚ} {participants : List String}
    {kwargs : SplitKwargs} {L' : Ledger}
    (h : L.add_expense ac payer amount participants "weights" kwargs
      = .ok L') :
    ∃ e : Expense, L'.expenses = L.expenses ++ [e]
      ∧ e.split = .weights (kwargs.weights.getD []) := by
  obtain ⟨L2, e, h1, _, _, h4, h5, _, _⟩ := add_expense_ok h
  exact ⟨e, by rw [h5, h1], make_weights h4⟩

/-! ## Counterexamples and witnesses on the concrete scenarios -/

section ConcreteScenarios

attribute [local semireducible] Rat.add Rat.mul Rat.inv Rat.sub Rat.ofScientific

/-- C1 counterexample: scenario S1 is built entirely from valid
`add_person` / `add_expense` calls (eight people, one equal expense of 0.03
among seven), yet after `balances()` the balance total is 0.03 — beyond the
settlement tolerance 0.01, refuting conservation within tolerance. -/
theorem conservation_cex :
    s1Build >>= Ledger.balances = .ok s1Bal
    ∧ balancesSum s1Bal = 3 / 100
    ∧ SETTLEMENT_TOLERANCE < |balancesSum s1Bal| := by
  refine ⟨by decide, by decide, by decide⟩

/-- C2 counterexample: settling scenario S1 leaves person `a` with balance
0.03 — the loop never runs (no debtors), the clamp does not touch it, and
0.03 exceeds the settlement tolerance, refuting all-balances-zero. -/
theorem settlement_cex :
    s1Build >>= Ledger.balances = .ok s1Bal
    ∧ (s1Bal.settle 20).map (fun r => r.2.people.map Person.balance)
        = some [3 / 100, 0, 0, 0, 0, 0, 0, 0]
    ∧ SETTLEMENT_TOLERANCE < |(3 : ℚ) / 100| := by
  refine ⟨by decide, by decide, by decide⟩

/-- C3 counterexample: in scenario S2 the only creditor holds exactly the
tolerance 0.01, so the loop exits immediately and emits no transfers: the
transaction sum 0 differs from the pre-settlement creditor total 0.01. -/
theorem settle_sum_cex :
    s2Build >>= Ledger.balances = .ok s2Bal
    ∧ (s2Bal.settle 5).map (fun r => txnSum r.1) = some 0
    ∧ posTotal s2Bal = 1 / 100
    ∧ (0 : ℚ) ≠ 1 / 100 := by
  refine ⟨by decide, by decide, by decide, by decide⟩

/-- C6 counterexample: the percentages `{a: 0.005, b: 99.995}` satisfy every
condition of the original claim — matching key set, each value greater than 0
and at most 100, summing to exactly 100 — yet `compute_shares` fails, because
the code's lower bound is `MIN_PERCENTAGE = 0.01`, not 0. -/
theorem percent_range_cex :
    SplitsNew.percentShares 100 ["a", "b"] [("a", 1/200), ("b", 19999/200)]
        = .error (.percentTooSmall "a")
    ∧ sameKeySet (cleanDict [("a", (1:ℚ)/200), ("b", 19999/200)]) ["a", "b"]
        = true
    ∧ (∀ kv ∈ cleanDict [("a", (1:ℚ)/200), ("b", 19999/200)],
        0 < kv.2 ∧ kv.2 ≤ 100)
    ∧ sumOverKeys (cleanDict [("a", (1:ℚ)/200), ("b", 19999/200)]) ["a", "b"]
        = 100 := by
  refine ⟨by decide, by decide, by decide, by decide⟩

/-- C7 counterexample: an `add_expense` call whose weights dict carries a
negative weight succeeds — the expense is stored — and the validation error
surfaces only when `balances()` later recomputes over the stored data. -/
theorem deferred_validation_cex :
    c7After = .ok c7Led
    ∧ c7Led.expenses.length = 1
    ∧ c7Led.balances = .error (.weightNegative "a") := by
  refine ⟨by decide, by decide, by decide⟩

/-- C1 witness: the ledger `wL` is `Built` (reachable through the public
mutators), its single expense is an exact-sum split, `balances()` succeeds,
and the conservation bound `n/200` holds for it. -/
theorem conservation_witness :
    (Built wL ∧ (∀ e ∈ wL.expenses, exactSumSplit e = true)
      ∧ wL.balances = .ok wLB)
    ∧ |balancesSum wLB| ≤ (wLB.people.length : ℚ) / 200 := by
  have h1 : Built (⟨[⟨"a", 0, 0, 0⟩], []⟩ : Ledger) :=
    @Built.person ⟨[], []⟩ ⟨[⟨"a", 0, 0, 0⟩], []⟩ "a" Built.empty (by decide)
  have h2 : Built (⟨[⟨"a", 0, 0, 0⟩, ⟨"b", 0, 0, 0⟩], []⟩ : Ledger) :=
    @Built.person ⟨[⟨"a", 0, 0, 0⟩], []⟩
      ⟨[⟨"a", 0, 0, 0⟩, ⟨"b", 0, 0, 0⟩], []⟩ "b" h1 (by decide)
  have h3 : Built wL :=
    @Built.expense ⟨[⟨"a", 0, 0, 0⟩, ⟨"b", 0, 0, 0⟩], []⟩ wL false "a"
      (1/100) ["b"] "equal" {} h2 (by decide)
  exact ⟨⟨h3, by decide, by decide⟩,
    conservation_bound wL wLB h3 (by decide) (by decide)⟩

/-- C2 witness: settling the recomputed two-person ledger `wLB` clamps both
within-tolerance balances; in particular the member `a` of the result has
balance exactly 0. -/
theorem settlement_witness :
    wLB.settle 5 = some ([], wLS)
    ∧ (⟨"a", 0, 1/100, 0⟩ : Person) ∈ wLS.people
    ∧ ((⟨"a", 0, 1/100, 0⟩ : Person).balance = 0
        ∨ SETTLEMENT_TOLERANCE < |(⟨"a", 0, 1/100, 0⟩ : Person).balance|) :=
  ⟨by decide, by decide,
    settle_zero_or_beyond_tolerance wLB 5 [] wLS (by decide)
      ⟨"a", 0, 1/100, 0⟩ (by decide)⟩

/-- C3 witness: on `wLB` the loop exits at once with no transfers, and the
accounting identity holds — the transaction sum equals the creditor total
minus the balance remaining on the initial creditors. -/
theorem settle_sum_witness :
    settleLoop 5 wLB.initSettleState
        = some ([], ⟨wLB.people, ["a"], ["b"]⟩)
    ∧ txnSum []
        = posTotal wLB
          - sumBalOver (⟨wLB.people, ["a"], ["b"]⟩ : SettleState).people
              wLB.creditorNames :=
  ⟨by decide,
    settle_txn_sum wLB 5 [] ⟨wLB.people, ["a"], ["b"]⟩ (by decide)
      (by decide) (by decide)⟩

/-- C4 witness: `balances()` on the concrete ledger `wL` yields `wLB`, and a
second call on `wLB` returns `wLB` unchanged. -/
theorem idempotence_witness :
    wL.balances = .ok wLB ∧ wLB.balances = .ok wLB :=
  ⟨by decide, balances_idempotent wL wLB (by decide)⟩

/-- C5 witness: the equal split of 10 among `a` and `b` yields exactly 5
each, summing back to 10. -/
theorem equal_split_witness :
    ((0 : ℚ) < 10 ∧ (["a", "b"] : List String) ≠ []
      ∧ (["a", "b"] : List String).Nodup)
    ∧ (SplitsNew.equalShares 10 ["a", "b"]
        = .ok ((["a", "b"] : List String).map
            (fun p => (p, (10 : ℚ) / (((["a", "b"] : List String).length : ℕ) : ℚ))))
      ∧ valuesSum ((["a", "b"] : List String).map
          (fun p => (p, (10 : ℚ) / (((["a", "b"] : List String).length : ℕ) : ℚ))))
        = 10) :=
  ⟨⟨by norm_num, by decide, by decide⟩,
    equalShares_spec 10 ["a", "b"] (by norm_num) (by decide) (by decide)⟩

/-- C7 witness: the malformed-weights `add_expense` on the two-person base
ledger succeeds and stores the negative weight verbatim in the appended
expense. -/
theorem deferred_validation_witness :
    c7Lab.add_expense false "a" 10 ["a", "b"] "weights" c7Kwargs = .ok c7Led
    ∧ ∃ e : Expense, c7Led.expenses = c7Lab.expenses ++ [e]
        ∧ e.split = .weights (c7Kwargs.weights.getD []) :=
  ⟨by decide,
    @add_expense_defers_strategy_validation false c7Lab "a" 10 ["a", "b"]
      c7Kwargs c7Led (by decide)⟩

/-- C8 witness: settling `wLB` (produced by `balances()` from `wL`) changes
no expense and no paid/owe field, and a recomputation restores `wLB`. -/
theorem frame_witness :
    (wL.balances = .ok wLB ∧ wLB.settle 5 = some ([], wLS))
    ∧ (wLS.expenses = wLB.expenses
      ∧ wLS.people.map coreView = wLB.people.map coreView
      ∧ wLS.balances = .ok wLB) :=
  ⟨⟨by decide, by decide⟩,
    settle_frame_and_restore wL wLB 5 [] wLS (by decide) (by decide)⟩

/-- C9 witness: on `wLB` — duplicate-free names, cent-valued balances,
creditor total 0.01 — fuel 5 exceeds 100 times the creditor total, and
`settle` indeed returns a result. -/
theorem termination_witness :
    ((wLB.people.map Person.name).Nodup
      ∧ (∀ p ∈ wLB.people, IsCents p.balance)
      ∧ 100 * posTotal wLB < ((5 : ℕ) : ℚ))
    ∧ (wLB.settle 5).isSome = true :=
  ⟨⟨by decide, by decide, by decide⟩,
    settle_terminates wLB 5 (by decide) (by decide) (by decide)⟩

end ConcreteScenarios

end ExpenseApp
